import Mathlib

/-!
# Verification of the Email-ML-Suite density-clustering engine

Shallow embedding of the DBSCAN clustering core (`euclidean`, `computeScaler`,
`applyScalerToRow`/`applyScaler`, `dbscan`, `assignByNearestCore`) from the
source file `src/unnamed/part_000`.

Embedding conventions:

* JS numbers are modelled as exact rationals (`ℚ`); the floating-point
  rounding of the source is abstracted to exact real arithmetic.
* The source compares square roots (`Math.sqrt s <= eps`, `d < best.dist`,
  `best.dist > eps`).  Since `Real.sqrt` is monotone and all the compared
  radicands are non-negative, every such comparison is carried out here on
  the squared values, which keeps every definition computable:
  `sqrt s ≤ eps    ↔  0 ≤ eps ∧ s ≤ eps²`,
  `sqrt s < sqrt t ↔  s < t`,
  `sqrt s > eps    ↔  eps < 0 ∨ eps² < s`.
* Accordingly the fitted scaler stores `stdSq` (the square of the source's
  `std` entry) and the scaled matrix is never materialised: the source only
  consumes scaled rows through Euclidean distances, and
  `euclidean(scale a, scale b)² = Σⱼ (centered a j − centered b j)² / stdSq j`
  is rational in the raw data (`scaledDistSq` below; the identity is proved
  as `euclidSq_applyScaler_eq` for rational std entries).
* JS `undefined` slots are `Option`; `Number(x || 0)` on a missing entry is
  `List.getD _ 0`; the `labels` array holds `Option ℤ` (`none` = unset).
* The process-global `window.__dbscan._last` session slot is threaded as an
  explicit `Option Session` state argument.
* The two unbounded loops of `dbscan` (the outer scan and the worklist
  expansion) are written with an explicit fuel argument so that they are
  structurally recursive and kernel-evaluable.  The outer loop needs exactly
  `X.length` steps; the expansion loop is run with `(n+1)²` fuel, which is
  proved sufficient (`expand_master`): each step either consumes a worklist
  entry or visits an unvisited point, so `|stack| + (n+1)·#unvisited`
  strictly decreases.
-/

namespace EmailML

/-- A feature vector: ordered sequence of numeric values. -/
abbrev Vec := List ℚ

/-- A feature matrix: one row per record. -/
abbrev Mat := List Vec

/-!
## Euclidean distance (source lines 3–12)

```js
function euclidean(a, b) {
  let s = 0;
  for (let i = 0; i < Math.max(a.length, b.length); i++) {
    const ai = Number(a[i] || 0);
    const bi = Number(b[i] || 0);
    const d = ai - bi;
    s += d * d;
  }
  return Math.sqrt(s);
}
```
`euclidSq a b` is the radicand `s`; the returned distance is `Real.sqrt`
of it (used only in theorem statements). -/
def euclidSq (a b : Vec) : ℚ :=
  (List.range (max a.length b.length)).foldl
    (fun s i => s + (a.getD i 0 - b.getD i 0) ^ 2) 0

/-!
## Z-score scaler (source lines 14–45)

`Scaler` is the source's `{ mean, std }` object with the `std` entries
stored squared (see the header).  `computeScaler` models:

```js
function computeScaler(X) {
  if (!Array.isArray(X) || X.length === 0) return { mean: [], std: [] };
  const n = X.length, m = X[0].length;
  for (let j = 0; j < m; j++) { mean[j] = (Σ_i Number(X[i][j] || 0)) / n; }
  for (let j = 0; j < m; j++) {
    std[j] = Math.sqrt((Σ_i (Number(X[i][j] || 0) - mean[j])²) / Math.max(1, n - 1));
    if (!isFinite(std[j]) || std[j] <= 1e-8) std[j] = 1;
  }
  return { mean, std };
}
```
The clamp `std[j] <= 1e-8` becomes `stdSq[j] ≤ (1e-8)²` (both sides are
non-negative); `!isFinite` cannot fire in exact arithmetic. -/
structure Scaler where
  mean : List ℚ
  stdSq : List ℚ
deriving DecidableEq

/-- Column mean: `(Σ_i Number(X[i][j] || 0)) / n`. -/
def colMean (X : Mat) (j : ℕ) : ℚ :=
  (X.foldl (fun s r => s + r.getD j 0) 0) / (X.length : ℚ)

/-- Column sample variance with divisor `max 1 (n-1)`; this is the square of
the source's un-clamped `std[j]`. -/
def colVar (X : Mat) (j : ℕ) : ℚ :=
  (X.foldl (fun s r => s + (r.getD j 0 - colMean X j) ^ 2) 0) /
    ((max 1 (X.length - 1) : ℕ) : ℚ)

/-- The degenerate-column clamp, on squares: `std ≤ 1e-8 → std = 1`. -/
def clampStdSq (v : ℚ) : ℚ :=
  if v ≤ (1 / 10 ^ 8) ^ 2 then 1 else v

/-- Function `computeScaler` (source lines 14–35), with `std` stored squared. -/
def computeScaler (X : Mat) : Scaler :=
  if X.isEmpty then ⟨[], []⟩
  else
    ⟨(List.range (X.headD []).length).map (colMean X),
     (List.range (X.headD []).length).map (fun j => clampStdSq (colVar X j))⟩

/-!
`applyScalerToRow` / `applyScaler` as independently exposed primitives
(source lines 36–45):

```js
function applyScalerToRow(row, scaler) {
  if (!scaler || !Array.isArray(scaler.mean) || !Array.isArray(scaler.std))
    return row.slice();
  return row.map((v, j) => (Number(v || 0) - (scaler.mean[j] || 0)) / (scaler.std[j] || 1));
}
function applyScaler(X, scaler) { return X.map((r) => applyScalerToRow(r, scaler)); }
```

The argument is modelled as `Option ScalerArg` where `ScalerArg` records
each field as `Option (List ℚ)`: `none` stands for a field that is absent
or fails the `Array.isArray` test (a malformed scaler).  The `std` entries
here are plain rationals; the clustering pipeline instead works with the
squared form (see `scaledDistSq` and `euclidSq_applyScaler_eq`). -/
structure ScalerArg where
  mean : Option (List ℚ)
  std : Option (List ℚ)

/-- Function `applyScalerToRow` (source lines 36–42). -/
def applyScalerToRow (row : Vec) (sc : Option ScalerArg) : Vec :=
  match sc with
  | none => row
  | some s =>
    match s.mean, s.std with
    | some mean, some std =>
        row.mapIdx (fun j v =>
          (v - mean.getD j 0) / (let d := std.getD j 1; if d = 0 then 1 else d))
    | _, _ => row

/-- Function `applyScaler` (source lines 43–45). -/
def applyScaler (X : Mat) (sc : Option ScalerArg) : Mat :=
  X.map (fun r => applyScalerToRow r sc)

/-!
## Distances between scaled rows, in rational form

For a raw row `a`, the scaled row is `applyScalerToRow` with
`std[j] = Real.sqrt (stdSq[j])`.  Position `j` of the zero-filled scaled
row equals `centered sc a j / sqrt (stdSqAt sc j)`, so the *squared*
Euclidean distance between two scaled rows is `scaledDistSq` below —
a rational in the raw data. -/

/-- Zero-filled mean-centered entry `j` of a raw row: the numerator of the
scaled entry, `0` beyond the row's length (the zero-fill of `euclidean`). -/
def centered (sc : Scaler) (row : Vec) (j : ℕ) : ℚ :=
  if j < row.length then row.getD j 0 - sc.mean.getD j 0 else 0

/-- Squared divisor at column `j`: the source's `(scaler.std[j] || 1)`
squared — `1` beyond the scaler's length and for a zero entry. -/
def stdSqAt (sc : Scaler) (j : ℕ) : ℚ :=
  let q := sc.stdSq.getD j 1
  if q = 0 then 1 else q

/-- The value `euclidean(applyScalerToRow a, applyScalerToRow b)²` expressed on the
raw rows (see the module header). -/
def scaledDistSq (sc : Scaler) (a b : Vec) : ℚ :=
  (List.range (max a.length b.length)).foldl
    (fun s j => s + (centered sc a j - centered sc b j) ^ 2 / stdSqAt sc j) 0

/-!
## DBSCAN (source lines 47–110)
-/

/-- Function `regionQuery(i)` (source lines 56–64): the indices `j ≠ i` with
`euclidean(X[i], X[j]) ≤ eps` over the scaled matrix, i.e.
`0 ≤ eps ∧ scaledDistSq ≤ eps²`. -/
def nbhd (X : Mat) (sc : Scaler) (eps : ℚ) (i : ℕ) : List ℕ :=
  (List.range X.length).filter
    (fun j => decide (j ≠ i ∧ 0 ≤ eps ∧
      scaledDistSq sc (X.getD i []) (X.getD j []) ≤ eps ^ 2))

/-- Source lines 84–85: `if (labels[j] === undefined || labels[j] === -1)
labels[j] = clusterId`. -/
def relabel (labels : List (Option ℤ)) (j : ℕ) (cid : ℤ) : List (Option ℤ) :=
  if labels.getD j none = none ∨ labels.getD j none = some (-1) then
    labels.set j (some cid)
  else labels

/-- Source lines 79–81: push each neighbour not already on the worklist
(the membership test sees earlier pushes of the same loop). -/
def pushNew (stack : List ℕ) (nbs : List ℕ) : List ℕ :=
  nbs.foldl (fun st nb => if nb ∈ st then st else st ++ [nb]) stack

/-- The cluster-expansion worklist loop (source lines 73–86), with explicit
fuel.  One step pops the front (`stack.shift()`); if the point is unvisited
it is marked visited and, when it is itself a core point, its neighbours
are pushed (deduplicated); in all cases the point's label is upgraded to
`cid` when it is unset or `-1`.  The guard `j < visited.length` only rules
out out-of-range indices, which never occur (the worklist holds
`regionQuery` results, all `< n`); on such an index the source would crash
in `regionQuery`. -/
def expand (X : Mat) (sc : Scaler) (eps : ℚ) (minPts : ℕ) (cid : ℤ) :
    ℕ → List ℕ → List Bool → List (Option ℤ) → List Bool × List (Option ℤ)
  | 0, _, visited, labels => (visited, labels)
  | _ + 1, [], visited, labels => (visited, labels)
  | fuel + 1, j :: stack, visited, labels =>
    if visited.getD j false = false ∧ j < visited.length then
      expand X sc eps minPts cid fuel
        (if minPts ≤ (nbhd X sc eps j).length + 1
         then pushNew stack (nbhd X sc eps j) else stack)
        (visited.set j true) (relabel labels j cid)
    else
      expand X sc eps minPts cid fuel stack visited (relabel labels j cid)

/-- Fuel that always suffices for `expand` (proved in `expand_master`). -/
def expandFuel (X : Mat) : ℕ := (X.length + 1) * (X.length + 1)

/-- The outer scan of `dbscan` (source lines 65–89): iterate `i` upward;
skip visited points; label a non-core unvisited point `-1`; otherwise open
cluster `cid` at `i` and run the expansion on `i`'s neighbourhood.  The
fuel is the number of remaining indices (`X.length` at the top). -/
def dbscanLoop (X : Mat) (sc : Scaler) (eps : ℚ) (minPts : ℕ) :
    ℕ → ℕ → ℤ → List Bool → List (Option ℤ) → List (Option ℤ) × ℤ
  | 0, _, cid, _, labels => (labels, cid)
  | fuel + 1, i, cid, visited, labels =>
    if i < X.length then
      if visited.getD i false then
        dbscanLoop X sc eps minPts fuel (i + 1) cid visited labels
      else
        if (nbhd X sc eps i).length + 1 < minPts then
          dbscanLoop X sc eps minPts fuel (i + 1) cid
            (visited.set i true) (labels.set i (some (-1)))
        else
          dbscanLoop X sc eps minPts fuel (i + 1) (cid + 1)
            (expand X sc eps minPts cid (expandFuel X) (nbhd X sc eps i)
              (visited.set i true) (labels.set i (some cid))).1
            (expand X sc eps minPts cid (expandFuel X) (nbhd X sc eps i)
              (visited.set i true) (labels.set i (some cid))).2
    else (labels, cid)

/-- The label array and final cluster-id counter of a full `dbscan` walk. -/
def dbscanRun (X : Mat) (eps : ℚ) (minPts : ℕ) : List (Option ℤ) × ℤ :=
  dbscanLoop X (computeScaler X) eps minPts X.length 0 0
    (List.replicate X.length false) (List.replicate X.length none)

/-- The second, independent core-point pass (source lines 90–94):
`i` is core iff `|regionQuery(i)| + 1 ≥ minPts`. -/
def corePointsOf (X : Mat) (sc : Scaler) (eps : ℚ) (minPts : ℕ) : List ℕ :=
  (List.range X.length).filter (fun i => decide (minPts ≤ (nbhd X sc eps i).length + 1))

/-- The core-point criterion for a single index. -/
def isCore (X : Mat) (sc : Scaler) (eps : ℚ) (minPts : ℕ) (i : ℕ) : Prop :=
  minPts ≤ (nbhd X sc eps i).length + 1

instance (X : Mat) (sc : Scaler) (eps : ℚ) (minPts i : ℕ) :
    Decidable (isCore X sc eps minPts i) := by unfold isCore; infer_instance

/-- One step of the summary fold (source line 96):
`counts[lbl] = (counts[lbl] || 0) + 1` on a key-ordered association list
(object keys are the emitted labels; `none` is the key `"undefined"`). -/
def bump (m : List (Option ℤ × ℕ)) (k : Option ℤ) : List (Option ℤ × ℕ) :=
  if m.any (fun p => decide (p.1 = k)) then
    m.map (fun p => if p.1 = k then (p.1, p.2 + 1) else p)
  else m ++ [(k, 1)]

/-- The label→count summary (source lines 95–97). -/
def summaryCounts (labels : List (Option ℤ)) : List (Option ℤ × ℕ) :=
  labels.foldl bump []

/-- The clustering session stashed in `window.__dbscan._last`
(source lines 98–108).  The stored `Xscaled` field is determined by
`(xraw, scaler)` and is represented by that pair. -/
structure Session where
  xraw : Mat
  scaler : Scaler
  labels : List (Option ℤ)
  corePoints : List ℕ
  epsUsed : ℚ
  minPtsUsed : ℕ
  summary : List (Option ℤ × ℕ)
deriving DecidableEq

/-- The value returned by `dbscan`.  `scaler = none` is the degenerate
branch's `scaler: null`; `summary = none` records that the degenerate
return value carries no `summary` field at all. -/
structure ClusterResult where
  labels : List (Option ℤ)
  corePoints : List ℕ
  scaler : Option Scaler
  summary : Option (List (Option ℤ × ℕ))
deriving DecidableEq

/-- Function `dbscan` (source lines 47–110), with the global session slot threaded
as explicit state.  The degenerate branch (line 48–49) returns the empty
result *without* touching the session slot. -/
def dbscan (st : Option Session) (Xraw : Mat) (eps : ℚ) (minPts : ℕ) :
    ClusterResult × Option Session :=
  if Xraw.isEmpty then (⟨[], [], none, none⟩, st)
  else
    let sc := computeScaler Xraw
    let labels := (dbscanRun Xraw eps minPts).1
    let cps := corePointsOf Xraw sc eps minPts
    let summ := summaryCounts labels
    (⟨labels, cps, some sc, some summ⟩,
     some ⟨Xraw, sc, labels, cps, eps, minPts, summ⟩)

/-!
## Incremental nearest-core assignment (source lines 112–127)

```js
function assignByNearestCore(Xraw, labels, corePoints, eps, newPoint) {
  let scaler = global.__dbscan?._last?.scaler || computeScaler(Xraw || []);
  const newPtScaled = applyScalerToRow(newPoint, scaler);
  const Xscaled = global.__dbscan?._last?.Xscaled || applyScaler(Xraw || [], scaler);
  let best = { idx: -1, dist: Infinity };
  for (const i of corePoints) {
    const xi = Xscaled[i];
    if (!xi) continue;
    const d = euclidean(xi, newPtScaled);
    if (d < best.dist) best = { idx: i, dist: d };
  }
  if (best.idx === -1 || best.dist > eps) return { cluster: -1, dist: best.dist };
  return { cluster: labels[best.idx], dist: best.dist };
}
```

When a session is present its scaler *and* its scaled matrix are used
(both come from the same `_last` object); otherwise a scaler is fitted
fresh on the `Xraw` argument.  `best` is `Option (ℕ × ℚ)` carrying the
squared distance; `none` is the initial `{idx: -1, dist: Infinity}` (every
finite distance satisfies `d < Infinity`, so the first compared core point
always replaces it). -/

/-- The scaler `assign` works with (source line 113). -/
def assignScaler (st : Option Session) (Xraw : Mat) : Scaler :=
  match st with
  | some s => s.scaler
  | none => computeScaler Xraw

/-- The raw matrix whose scaled rows `assign` compares against
(source lines 115–116): the session's own matrix when present. -/
def assignMat (st : Option Session) (Xraw : Mat) : Mat :=
  match st with
  | some s => s.xraw
  | none => Xraw

/-- Squared distance from the scaled new point to the scaled row `i`. -/
def coreDist (st : Option Session) (Xraw : Mat) (np : Vec) (i : ℕ) : ℚ :=
  scaledDistSq (assignScaler st Xraw) ((assignMat st Xraw).getD i []) np

/-- One iteration of the best-core loop (source lines 118–123): skip an
index with no scaled row (`if (!xi) continue`), otherwise keep the
strictly closer of the running best and the current core point (the
initial `dist: Infinity` is `none`, which every comparison beats). -/
def nearStep (st : Option Session) (Xraw : Mat) (np : Vec)
    (b : Option (ℕ × ℚ)) (i : ℕ) : Option (ℕ × ℚ) :=
  if i < (assignMat st Xraw).length then
    match b with
    | none => some (i, coreDist st Xraw np i)
    | some (bi, bd) =>
      if coreDist st Xraw np i < bd then some (i, coreDist st Xraw np i)
      else some (bi, bd)
  else b

/-- The strict-improvement fold over `corePoints` (source lines 117–123). -/
def nearestCore (st : Option Session) (Xraw : Mat) (np : Vec)
    (cps : List ℕ) : Option (ℕ × ℚ) :=
  cps.foldl (nearStep st Xraw np) none

/-- The result of `assignByNearestCore`.  `cluster = some v` is the JS
number `v` (`some (-1)` is the noise outcome); `none` would be an
`undefined` label read off the end of the `labels` argument.
`distSq = some d` carries the squared distance (the source's `dist` is its
square root); `distSq = none` is `dist: Infinity`. -/
structure AssignResult where
  cluster : Option ℤ
  distSq : Option ℚ
deriving DecidableEq

/-- Function `assignByNearestCore` (source lines 112–127).  The test
`best.dist > eps` on square roots is `eps < 0 ∨ eps² < bd` on squares. -/
def assignByNearestCore (st : Option Session) (Xraw : Mat)
    (labels : List (Option ℤ)) (corePoints : List ℕ) (eps : ℚ)
    (newPoint : Vec) : AssignResult :=
  match nearestCore st Xraw newPoint corePoints with
  | none => ⟨some (-1), none⟩
  | some (bi, bd) =>
    if eps < 0 ∨ eps ^ 2 < bd then ⟨some (-1), some bd⟩
    else ⟨labels.getD bi none, some bd⟩

/-!
## Generic list helpers
-/

/-- Reading a set entry at the written index. -/
theorem getD_set_self {α : Type} (l : List α) (j : ℕ) (a d : α) (h : j < l.length) :
    (l.set j a).getD j d = a := by
  rw [List.getD_eq_getElem?_getD, List.getElem?_set_self', List.getElem?_eq_getElem h]
  simp

/-- Reading a set entry at another index. -/
theorem getD_set_ne {α : Type} (l : List α) (j p : ℕ) (a d : α) (h : j ≠ p) :
    (l.set j a).getD p d = l.getD p d := by
  rw [List.getD_eq_getElem?_getD, List.getElem?_set_ne h, ← List.getD_eq_getElem?_getD]

/-- Reading an in-range index with `getD` yields a member. -/
theorem getD_mem {α : Type} (l : List α) (n : ℕ) (d : α) (h : n < l.length) :
    l.getD n d ∈ l := by
  rw [List.getD_eq_getElem?_getD, List.getElem?_eq_getElem h]
  exact List.getElem_mem h

/-- Reading beyond the length with `getD` gives the default. -/
theorem getD_eq_default {α : Type} (l : List α) (n : ℕ) (d : α) (h : l.length ≤ n) :
    l.getD n d = d := by
  rw [List.getD_eq_getElem?_getD, List.getElem?_eq_none h]
  rfl

/-- A left fold of additions, as the initial value plus a mapped sum. -/
theorem foldl_add_eq {α : Type} (f : α → ℚ) (l : List α) (init : ℚ) :
    l.foldl (fun s j => s + f j) init = init + (l.map f).sum := by
  induction l generalizing init with
  | nil => simp
  | cons x xs ih => simp [ih, add_assoc]

/-- A mapped sum over `List.range` as a `Finset.range` sum. -/
theorem sum_map_range (f : ℕ → ℚ) (n : ℕ) :
    ((List.range n).map f).sum = ∑ i in Finset.range n, f i := by
  induction n with
  | zero => simp
  | succ m ih => rw [List.range_succ, Finset.sum_range_succ]; simp [ih]

/-- Setting an unvisited slot to `true` decreases the `false` count. -/
theorem count_false_set_true (l : List Bool) (j : ℕ) (hj : j < l.length)
    (hf : l.getD j false = false) :
    (l.set j true).count false + 1 = l.count false := by
  induction l generalizing j with
  | nil => simp at hj
  | cons x xs ih =>
    cases j with
    | zero =>
      simp only [List.getD_eq_getElem?_getD] at hf
      simp at hf
      subst hf
      simp [List.count_cons]
    | succ m =>
      have hm : m < xs.length := by simpa using hj
      have hf' : xs.getD m false = false := by
        simpa [List.getD_eq_getElem?_getD] using hf
      simp only [List.set_cons_succ, List.count_cons]
      have := ih m hm hf'
      omega

/-!
## Basic lemmas about the embedded components
-/

/-- Membership in a `regionQuery` neighbourhood. -/
theorem mem_nbhd {X : Mat} {sc : Scaler} {eps : ℚ} {i j : ℕ} :
    j ∈ nbhd X sc eps i ↔
      j < X.length ∧ j ≠ i ∧ 0 ≤ eps ∧
        scaledDistSq sc (X.getD i []) (X.getD j []) ≤ eps ^ 2 := by
  simp [nbhd, List.mem_filter, List.mem_range, and_assoc]

/-- A neighbourhood never exceeds the point count. -/
theorem nbhd_length_le (X : Mat) (sc : Scaler) (eps : ℚ) (i : ℕ) :
    (nbhd X sc eps i).length ≤ X.length := by
  simpa [nbhd] using List.length_filter_le _ (List.range X.length)

/-- Membership in the standalone core-point pass. -/
theorem mem_corePointsOf {X : Mat} {sc : Scaler} {eps : ℚ} {minPts i : ℕ} :
    i ∈ corePointsOf X sc eps minPts ↔ i < X.length ∧ isCore X sc eps minPts i := by
  simp [corePointsOf, isCore, List.mem_filter, List.mem_range]

/-- The squared scaled distance of a row to itself vanishes. -/
theorem scaledDistSq_self (sc : Scaler) (a : Vec) : scaledDistSq sc a a = 0 := by
  unfold scaledDistSq
  rw [foldl_add_eq]
  have : ∀ j ∈ List.range (max a.length a.length),
      (fun j => (centered sc a j - centered sc a j) ^ 2 / stdSqAt sc j) j = 0 := by
    intro j _
    simp
  rw [List.map_congr_left this]
  simp

/-- Symmetry of the squared scaled distance. -/
theorem scaledDistSq_comm (sc : Scaler) (a b : Vec) :
    scaledDistSq sc a b = scaledDistSq sc b a := by
  unfold scaledDistSq
  rw [Nat.max_comm]
  congr 1
  funext s j
  ring_nf

/-- The squared divisor is positive whenever the stored entries are. -/
theorem stdSqAt_pos {sc : Scaler} (h : ∀ q ∈ sc.stdSq, 0 < q) (j : ℕ) :
    0 < stdSqAt sc j := by
  unfold stdSqAt
  by_cases hj : j < sc.stdSq.length
  · have hmem := getD_mem sc.stdSq j 1 hj
    have := h _ hmem
    simp only []
    split
    · exact one_pos
    · exact this
  · rw [getD_eq_default _ _ _ (by omega)]
    norm_num

/-- The squared scaled distance is non-negative for a positive-entry scaler. -/
theorem scaledDistSq_nonneg {sc : Scaler} (h : ∀ q ∈ sc.stdSq, 0 < q) (a b : Vec) :
    0 ≤ scaledDistSq sc a b := by
  unfold scaledDistSq
  rw [foldl_add_eq, zero_add]
  apply List.sum_nonneg
  intro x hx
  simp only [List.mem_map] at hx
  obtain ⟨j, -, rfl⟩ := hx
  exact div_nonneg (sq_nonneg _) (le_of_lt (stdSqAt_pos h j))

/-- A point at squared distance zero (and distinct index) is in the
neighbourhood, for any `eps ≥ 0`. -/
theorem mem_nbhd_of_dup {X : Mat} {sc : Scaler} {eps : ℚ} {i q : ℕ}
    (heps : 0 ≤ eps) (hq : q < X.length) (hne : q ≠ i)
    (hd : scaledDistSq sc (X.getD i []) (X.getD q []) = 0) :
    q ∈ nbhd X sc eps i := by
  rw [mem_nbhd]
  exact ⟨hq, hne, heps, by rw [hd]; positivity⟩

/-!
## Scaler lemmas
-/

/-- The column variance is non-negative. -/
theorem colVar_nonneg (X : Mat) (j : ℕ) : 0 ≤ colVar X j := by
  unfold colVar
  apply div_nonneg
  · rw [foldl_add_eq, zero_add]
    apply List.sum_nonneg
    intro x hx
    simp only [List.mem_map] at hx
    obtain ⟨r, -, rfl⟩ := hx
    exact sq_nonneg _
  · positivity

/-- After the clamp, column variances are strictly positive. -/
theorem clampStdSq_pos {v : ℚ} (h : 0 ≤ v) : 0 < clampStdSq v := by
  unfold clampStdSq
  split
  · norm_num
  · next hv => nlinarith

/-- All stored squared standard deviations of a fitted scaler are
positive (hence the source's `std[j]` is finite and never `0`). -/
theorem computeScaler_stdSq_pos (X : Mat) :
    ∀ q ∈ (computeScaler X).stdSq, 0 < q := by
  intro q hq
  unfold computeScaler at hq
  split at hq
  · simp at hq
  · simp only [List.mem_map] at hq
    obtain ⟨j, -, rfl⟩ := hq
    exact clampStdSq_pos (colVar_nonneg X j)

/-!
## `relabel` lemmas
-/

/-- Applying `relabel` keeps the length. -/
theorem relabel_length (labels : List (Option ℤ)) (j : ℕ) (cid : ℤ) :
    (relabel labels j cid).length = labels.length := by
  unfold relabel
  split
  · exact List.length_set ..
  · rfl

/-- Applying `relabel` does not touch other slots. -/
theorem relabel_getD_ne (labels : List (Option ℤ)) (j p : ℕ) (cid : ℤ) (h : j ≠ p) :
    (relabel labels j cid).getD p none = labels.getD p none := by
  unfold relabel
  split
  · exact getD_set_ne _ _ _ _ _ h
  · rfl

/-- Applying `relabel` at an out-of-range index is the identity. -/
theorem relabel_oob (labels : List (Option ℤ)) (j : ℕ) (cid : ℤ)
    (h : labels.length ≤ j) :
    relabel labels j cid = labels := by
  unfold relabel
  split
  · exact List.set_eq_of_length_le h
  · rfl

/-- The slot written by `relabel`, by cases on its previous value. -/
theorem relabel_getD_self (labels : List (Option ℤ)) (j : ℕ) (cid : ℤ)
    (hj : j < labels.length) :
    (relabel labels j cid).getD j none =
      if labels.getD j none = none ∨ labels.getD j none = some (-1) then some cid
      else labels.getD j none := by
  unfold relabel
  split
  · exact getD_set_self _ _ _ _ hj
  · rfl

/-- A non-negative label survives `relabel`. -/
theorem relabel_nonneg {labels : List (Option ℤ)} {p : ℕ} {c : ℤ}
    (j : ℕ) (cid : ℤ) (hc : 0 ≤ c) (h : labels.getD p none = some c) :
    (relabel labels j cid).getD p none = some c := by
  by_cases hpj : j = p
  · subst hpj
    by_cases hlen : j < labels.length
    · rw [relabel_getD_self _ _ _ hlen, h]
      rw [if_neg (by simp; omega)]
    · rw [relabel_oob _ _ _ (by omega), h]
  · rw [relabel_getD_ne _ _ _ _ hpj, h]

/-- Any slot changed by `relabel` now holds `some cid`. -/
theorem relabel_changed {labels : List (Option ℤ)} {p j : ℕ} {cid : ℤ}
    (h : (relabel labels j cid).getD p none ≠ labels.getD p none) :
    (relabel labels j cid).getD p none = some cid := by
  by_cases hpj : j = p
  · subst hpj
    by_cases hlen : j < labels.length
    · rw [relabel_getD_self _ _ _ hlen] at h ⊢
      by_cases hcond : labels.getD j none = none ∨ labels.getD j none = some (-1)
      · rw [if_pos hcond]
      · rw [if_neg hcond] at h
        exact absurd rfl h
    · rw [relabel_oob _ _ _ (by omega)] at h
      exact absurd rfl h
  · rw [relabel_getD_ne _ _ _ _ hpj] at h
    exact absurd rfl h

/-- After `relabel j`, slot `j` holds a label; when the previous labels all
came from the walk (unset, `-1`, or a non-negative id), it is non-negative. -/
theorem relabel_getD_self_nonneg {labels : List (Option ℤ)} {j : ℕ} {cid : ℤ}
    (hj : j < labels.length) (hcid : 0 ≤ cid)
    (hok : ∀ c : ℤ, labels.getD j none = some c → c = -1 ∨ 0 ≤ c) :
    ∃ c : ℤ, 0 ≤ c ∧ (relabel labels j cid).getD j none = some c := by
  rw [relabel_getD_self _ _ _ hj]
  by_cases hcond : labels.getD j none = none ∨ labels.getD j none = some (-1)
  · rw [if_pos hcond]
    exact ⟨cid, hcid, rfl⟩
  · rw [if_neg hcond]
    push_neg at hcond
    rcases hl : labels.getD j none with - | l
    · exact absurd hl hcond.1
    · rcases hok l hl with h1 | h1
      · subst h1
        exact absurd hl hcond.2
      · exact ⟨l, h1, rfl⟩

/-!
## `pushNew` lemmas
-/

/-- Membership after the deduplicating pushes. -/
theorem mem_pushNew {stack nbs : List ℕ} {x : ℕ} :
    x ∈ pushNew stack nbs ↔ x ∈ stack ∨ x ∈ nbs := by
  unfold pushNew
  induction nbs generalizing stack with
  | nil => simp
  | cons y ys ih =>
    simp only [List.foldl_cons]
    by_cases hy : y ∈ stack
    · rw [if_pos hy, ih]
      constructor
      · rintro (h | h)
        · exact Or.inl h
        · exact Or.inr (by simp [h])
      · rintro (h | h)
        · exact Or.inl h
        · rcases List.mem_cons.mp h with rfl | h
          · exact Or.inl hy
          · exact Or.inr h
    · rw [if_neg hy, ih]
      simp only [List.mem_append, List.mem_singleton, List.mem_cons]
      tauto

/-- Every push adds at most one entry. -/
theorem pushNew_length_le (stack nbs : List ℕ) :
    (pushNew stack nbs).length ≤ stack.length + nbs.length := by
  unfold pushNew
  induction nbs generalizing stack with
  | nil => simp
  | cons y ys ih =>
    simp only [List.foldl_cons, List.length_cons]
    by_cases hy : y ∈ stack
    · rw [if_pos hy]
      calc (ys.foldl (fun st nb => if nb ∈ st then st else st ++ [nb]) stack).length
          ≤ stack.length + ys.length := ih stack
        _ ≤ stack.length + (ys.length + 1) := by omega
    · rw [if_neg hy]
      calc (ys.foldl (fun st nb => if nb ∈ st then st else st ++ [nb]) (stack ++ [y])).length
          ≤ (stack ++ [y]).length + ys.length := ih (stack ++ [y])
        _ = stack.length + (ys.length + 1) := by simp; omega

/-!
## Invariants of the DBSCAN walk

These predicates are maintained by the expansion loop and the outer scan.
-/

/-- Visited core points already carry a non-negative label. -/
def InvVC (X : Mat) (sc : Scaler) (eps : ℚ) (minPts : ℕ)
    (visited : List Bool) (labels : List (Option ℤ)) : Prop :=
  ∀ p, p < X.length → visited.getD p false = true → isCore X sc eps minPts p →
    ∃ c : ℤ, 0 ≤ c ∧ labels.getD p none = some c

/-- Labelled points are visited. -/
def InvLV (X : Mat) (visited : List Bool) (labels : List (Option ℤ)) : Prop :=
  ∀ p, p < X.length → labels.getD p none ≠ none → visited.getD p false = true

/-- Visited points are labelled. -/
def InvVL (X : Mat) (visited : List Bool) (labels : List (Option ℤ)) : Prop :=
  ∀ p, p < X.length → visited.getD p false = true → labels.getD p none ≠ none

/-- Every set label is `-1` or non-negative. -/
def LabelsSane (labels : List (Option ℤ)) : Prop :=
  ∀ p c, labels.getD p none = some c → c = -1 ∨ 0 ≤ c

/-- Two rows at squared scaled distance zero (co-located points). -/
def Dup (X : Mat) (sc : Scaler) (p q : ℕ) : Prop :=
  scaledDistSq sc (X.getD p []) (X.getD q []) = 0

/-- Labels agree on co-located core points, except that the partner may
still be pending on the active worklist for the current cluster. -/
def InvPend (X : Mat) (sc : Scaler) (eps : ℚ) (minPts : ℕ) (cid : ℤ)
    (stack : List ℕ) (labels : List (Option ℤ)) : Prop :=
  ∀ p q, p < X.length → q < X.length →
    isCore X sc eps minPts p → isCore X sc eps minPts q → Dup X sc p q →
    ∀ c : ℤ, 0 ≤ c → labels.getD p none = some c →
      labels.getD q none = some c ∨
        (q ∈ stack ∧ c = cid ∧
          (labels.getD q none = none ∨ labels.getD q none = some (-1) ∨
           labels.getD q none = some cid))

/-- Labels agree on co-located core points. -/
def InvDup (X : Mat) (sc : Scaler) (eps : ℚ) (minPts : ℕ)
    (labels : List (Option ℤ)) : Prop :=
  ∀ p q, p < X.length → q < X.length →
    isCore X sc eps minPts p → isCore X sc eps minPts q → Dup X sc p q →
    ∀ c : ℤ, 0 ≤ c → labels.getD p none = some c → labels.getD q none = some c

/-- An empty worklist turns the pending invariant into plain agreement. -/
theorem invPend_nil {X : Mat} {sc : Scaler} {eps : ℚ} {minPts : ℕ} {cid : ℤ}
    {labels : List (Option ℤ)} (h : InvPend X sc eps minPts cid [] labels) :
    InvDup X sc eps minPts labels := by
  intro p q hp hq hcp hcq hd c hc hlab
  rcases h p q hp hq hcp hcq hd c hc hlab with h1 | ⟨h1, -⟩
  · exact h1
  · simp at h1

/-!
## Plain facts about `expand`
-/

/-- The loop `expand` keeps both lengths. -/
theorem expand_lengths (X : Mat) (sc : Scaler) (eps : ℚ) (minPts : ℕ) (cid : ℤ) :
    ∀ (fuel : ℕ) (stack : List ℕ) (visited : List Bool) (labels : List (Option ℤ)),
      (expand X sc eps minPts cid fuel stack visited labels).1.length = visited.length ∧
      (expand X sc eps minPts cid fuel stack visited labels).2.length = labels.length := by
  intro fuel
  induction fuel with
  | zero => intro stack visited labels; simp [expand]
  | succ f ih =>
    intro stack visited labels
    cases stack with
    | nil => simp [expand]
    | cons j rest =>
      rw [expand]
      split
      · rcases ih _ (visited.set j true) (relabel labels j cid) with ⟨h1, h2⟩
        rw [h1, h2, List.length_set, relabel_length]
        exact ⟨rfl, rfl⟩
      · rcases ih rest visited (relabel labels j cid) with ⟨h1, h2⟩
        rw [h1, h2, relabel_length]
        exact ⟨rfl, rfl⟩

/-- The loop `expand` never unvisits a point. -/
theorem expand_visited_mono (X : Mat) (sc : Scaler) (eps : ℚ) (minPts : ℕ) (cid : ℤ) :
    ∀ (fuel : ℕ) (stack : List ℕ) (visited : List Bool) (labels : List (Option ℤ))
      (p : ℕ), visited.getD p false = true →
      (expand X sc eps minPts cid fuel stack visited labels).1.getD p false = true := by
  intro fuel
  induction fuel with
  | zero => intro stack visited labels p hp; simpa [expand] using hp
  | succ f ih =>
    intro stack visited labels p hp
    cases stack with
    | nil => simpa [expand] using hp
    | cons j rest =>
      rw [expand]
      split
      · next hcond =>
        apply ih
        by_cases hpj : j = p
        · subst hpj
          exact getD_set_self _ _ _ _ hcond.2
        · rwa [getD_set_ne _ _ _ _ _ hpj]
      · exact ih _ _ _ p hp

/-- Once a slot holds a non-negative label, `expand` never changes it
(claim C5's monotonicity, at the expansion level). -/
theorem expand_label_mono (X : Mat) (sc : Scaler) (eps : ℚ) (minPts : ℕ) (cid : ℤ) :
    ∀ (fuel : ℕ) (stack : List ℕ) (visited : List Bool) (labels : List (Option ℤ))
      (p : ℕ) (c : ℤ), 0 ≤ c → labels.getD p none = some c →
      (expand X sc eps minPts cid fuel stack visited labels).2.getD p none = some c := by
  intro fuel
  induction fuel with
  | zero => intro stack visited labels p c hc h; simpa [expand] using h
  | succ f ih =>
    intro stack visited labels p c hc h
    cases stack with
    | nil => simpa [expand] using h
    | cons j rest =>
      rw [expand]
      split
      · exact ih _ _ _ p c hc (relabel_nonneg _ _ hc h)
      · exact ih _ _ _ p c hc (relabel_nonneg _ _ hc h)

/-- Every slot `expand` changes is set to the active cluster id. -/
theorem expand_label_new (X : Mat) (sc : Scaler) (eps : ℚ) (minPts : ℕ) (cid : ℤ) :
    ∀ (fuel : ℕ) (stack : List ℕ) (visited : List Bool) (labels : List (Option ℤ))
      (p : ℕ),
      (expand X sc eps minPts cid fuel stack visited labels).2.getD p none ≠
        labels.getD p none →
      (expand X sc eps minPts cid fuel stack visited labels).2.getD p none = some cid := by
  intro fuel
  induction fuel with
  | zero => intro stack visited labels p h; simp [expand] at h
  | succ f ih =>
    intro stack visited labels p h
    cases stack with
    | nil => simp [expand] at h
    | cons j rest =>
      rw [expand] at h ⊢
      split at h
      · next hcond =>
        rw [if_pos hcond]
        by_cases hch :
            (expand X sc eps minPts cid f
              (if minPts ≤ (nbhd X sc eps j).length + 1
               then pushNew rest (nbhd X sc eps j) else rest)
              (visited.set j true) (relabel labels j cid)).2.getD p none =
            (relabel labels j cid).getD p none
        · rw [hch]
          rw [hch] at h
          exact relabel_changed h
        · exact ih _ _ _ p hch
      · next hcond =>
        rw [if_neg hcond]
        by_cases hch :
            (expand X sc eps minPts cid f rest visited
              (relabel labels j cid)).2.getD p none =
            (relabel labels j cid).getD p none
        · rw [hch]
          rw [hch] at h
          exact relabel_changed h
        · exact ih _ _ _ p hch

/-- Sanity of labels survives `relabel` with a non-negative id. -/
theorem labelsSane_relabel {labels : List (Option ℤ)} (j : ℕ) {cid : ℤ}
    (hcid : 0 ≤ cid) (h : LabelsSane labels) : LabelsSane (relabel labels j cid) := by
  intro p c hc
  by_cases hch : (relabel labels j cid).getD p none = labels.getD p none
  · rw [hch] at hc
    exact h p c hc
  · have := relabel_changed hch
    rw [this] at hc
    cases hc
    right
    exact hcid

/-- Symmetry of co-location. -/
theorem dup_symm {X : Mat} {sc : Scaler} {p q : ℕ} (h : Dup X sc p q) :
    Dup X sc q p := by
  unfold Dup at h ⊢
  rwa [scaledDistSq_comm]

/-- The master lemma for the expansion loop: with fuel at least
`|stack| + (n+1)·#unvisited` the worklist is fully consumed, all walk
invariants are preserved, and on exit co-located core points agree on
their labels. -/
theorem expand_master (X : Mat) (sc : Scaler) (eps : ℚ) (minPts : ℕ) (cid : ℤ)
    (heps : 0 ≤ eps) (hcid : 0 ≤ cid) :
    ∀ (fuel : ℕ) (stack : List ℕ) (visited : List Bool) (labels : List (Option ℤ)),
      visited.length = X.length → labels.length = X.length →
      stack.length + (X.length + 1) * (visited.count false) ≤ fuel →
      InvVC X sc eps minPts visited labels →
      InvLV X visited labels →
      InvVL X visited labels →
      LabelsSane labels →
      InvPend X sc eps minPts cid stack labels →
      InvVC X sc eps minPts (expand X sc eps minPts cid fuel stack visited labels).1
          (expand X sc eps minPts cid fuel stack visited labels).2 ∧
        InvLV X (expand X sc eps minPts cid fuel stack visited labels).1
          (expand X sc eps minPts cid fuel stack visited labels).2 ∧
        InvVL X (expand X sc eps minPts cid fuel stack visited labels).1
          (expand X sc eps minPts cid fuel stack visited labels).2 ∧
        LabelsSane (expand X sc eps minPts cid fuel stack visited labels).2 ∧
        InvDup X sc eps minPts (expand X sc eps minPts cid fuel stack visited labels).2 := by
  intro fuel
  induction fuel with
  | zero =>
    intro stack visited labels hvl hll hfuel h1 h2 h3 h4 h5
    have hstack : stack = [] := by
      cases stack with
      | nil => rfl
      | cons a b => simp at hfuel
    subst hstack
    simp only [expand]
    exact ⟨h1, h2, h3, h4, invPend_nil h5⟩
  | succ f ih =>
    intro stack visited labels hvl hll hfuel h1 h2 h3 h4 h5
    cases stack with
    | nil =>
      simp only [expand]
      exact ⟨h1, h2, h3, h4, invPend_nil h5⟩
    | cons j rest =>
      rw [expand]
      split
      · -- the popped index is unvisited and in range
        next hcond =>
        apply ih
        · rwa [List.length_set]
        · rwa [relabel_length]
        · -- fuel accounting
          have hcf := count_false_set_true visited j hcond.2 hcond.1
          have hmul : (X.length + 1) * visited.count false
              = (X.length + 1) * (visited.set j true).count false + (X.length + 1) := by
            rw [← hcf, Nat.mul_succ]
          have hlen2 : (if minPts ≤ (nbhd X sc eps j).length + 1
              then pushNew rest (nbhd X sc eps j) else rest).length
              ≤ rest.length + X.length := by
            split
            · have hpl := pushNew_length_le rest (nbhd X sc eps j)
              have hnl := nbhd_length_le X sc eps j
              omega
            · omega
          simp only [List.length_cons] at hfuel
          omega
        · -- InvVC
          intro p hp hvis hcore
          by_cases hpj : p = j
          · subst hpj
            exact relabel_getD_self_nonneg (by omega) hcid (fun c hc => h4 p c hc)
          · have hvis' : visited.getD p false = true := by
              rwa [getD_set_ne _ _ _ _ _ (fun hh => hpj hh.symm)] at hvis
            obtain ⟨c, hc0, hcl⟩ := h1 p hp hvis' hcore
            exact ⟨c, hc0, relabel_nonneg _ _ hc0 hcl⟩
        · -- InvLV
          intro p hp hlab
          by_cases hpj : p = j
          · subst hpj
            exact getD_set_self _ _ _ _ hcond.2
          · have hlab' : labels.getD p none ≠ none := by
              rwa [relabel_getD_ne _ _ _ _ (fun hh => hpj hh.symm)] at hlab
            rw [getD_set_ne _ _ _ _ _ (fun hh => hpj hh.symm)]
            exact h2 p hp hlab'
        · -- InvVL
          intro p hp hvis
          by_cases hpj : p = j
          · subst hpj
            obtain ⟨c, -, hcl⟩ :=
              @relabel_getD_self_nonneg labels p cid
                (by omega) hcid (fun c hc => h4 p c hc)
            rw [hcl]
            simp
          · rw [relabel_getD_ne _ _ _ _ (fun hh => hpj hh.symm)]
            apply h3 p hp
            rwa [getD_set_ne _ _ _ _ _ (fun hh => hpj hh.symm)] at hvis
        · exact labelsSane_relabel _ hcid h4
        · -- InvPend
          intro p q hp hq hcp hcq hdpq c hc hlabp
          by_cases hqp : q = p
          · left
            rwa [hqp]
          by_cases hpj : p = j
          · -- the popped point itself
            subst hpj
            by_cases hch : (relabel labels p cid).getD p none = labels.getD p none
            · -- slot p kept its old (hence some) value
              rw [hch] at hlabp
              rcases h5 p q hp hq hcp hcq hdpq c hc hlabp with hL | ⟨hqs, hccid, htrip⟩
              · left
                exact relabel_nonneg _ _ hc hL
              · have hqrest : q ∈ rest := by
                  rcases List.mem_cons.mp hqs with hh | hh
                  · exact absurd hh hqp
                  · exact hh
                right
                refine ⟨?_, hccid, ?_⟩
                · split
                  · exact mem_pushNew.mpr (Or.inl hqrest)
                  · exact hqrest
                · rw [relabel_getD_ne _ _ _ _ (fun hh => hqp hh.symm)]
                  exact htrip
            · -- slot p was upgraded to the running cluster id
              have hcidp := relabel_changed hch
              rw [hlabp] at hcidp
              have hceq : c = cid := by
                injection hcidp
              rcases hLq : labels.getD q none with - | lq
              · -- the partner is unlabelled: it sits on the new worklist
                right
                have hqnb : q ∈ nbhd X sc eps p :=
                  mem_nbhd_of_dup heps hq hqp hdpq
                refine ⟨?_, hceq, ?_⟩
                · rw [if_pos (show minPts ≤ (nbhd X sc eps p).length + 1 from hcp)]
                  exact mem_pushNew.mpr (Or.inr hqnb)
                · rw [relabel_getD_ne _ _ _ _ (fun hh => hqp hh.symm), hLq]
                  exact Or.inl rfl
              · by_cases hlq1 : lq = -1
                · subst hlq1
                  right
                  have hqnb : q ∈ nbhd X sc eps p :=
                    mem_nbhd_of_dup heps hq hqp hdpq
                  refine ⟨?_, hceq, ?_⟩
                  · rw [if_pos (show minPts ≤ (nbhd X sc eps p).length + 1 from hcp)]
                    exact mem_pushNew.mpr (Or.inr hqnb)
                  · rw [relabel_getD_ne _ _ _ _ (fun hh => hqp hh.symm), hLq]
                    exact Or.inr (Or.inl rfl)
                · -- the partner already carries a non-negative label
                  have hlq0 : 0 ≤ lq := (h4 q lq hLq).resolve_left hlq1
                  rcases h5 q p hq hp hcq hcp (dup_symm hdpq) lq hlq0 hLq with
                    hL | ⟨-, hlqcid, -⟩
                  · -- impossible: slot p held a surviving non-negative label
                    exfalso
                    have := relabel_nonneg p cid hlq0 hL
                    rw [hL] at hch
                    exact hch this
                  · left
                    rw [relabel_getD_ne _ _ _ _ (fun hh => hqp hh.symm), hLq,
                      hlqcid, hceq]
          · -- a slot other than the popped one
            have hlabp' : labels.getD p none = some c := by
              rwa [relabel_getD_ne _ _ _ _ (fun hh => hpj hh.symm)] at hlabp
            rcases h5 p q hp hq hcp hcq hdpq c hc hlabp' with hL | ⟨hqs, hccid, htrip⟩
            · left
              exact relabel_nonneg _ _ hc hL
            · by_cases hqj : q = j
              · -- the partner is the popped point: it receives the id now
                subst hqj
                left
                rcases htrip with ht | ht | ht
                · rw [hccid, relabel_getD_self _ _ _ (by omega), if_pos (Or.inl ht)]
                · rw [hccid, relabel_getD_self _ _ _ (by omega), if_pos (Or.inr ht)]
                · rw [hccid]
                  exact relabel_nonneg _ _ hcid ht
              · have hqrest : q ∈ rest := by
                  rcases List.mem_cons.mp hqs with hh | hh
                  · exact absurd hh hqj
                  · exact hh
                right
                refine ⟨?_, hccid, ?_⟩
                · split
                  · exact mem_pushNew.mpr (Or.inl hqrest)
                  · exact hqrest
                · rw [relabel_getD_ne _ _ _ _ (fun hh => hqj hh.symm)]
                  exact htrip
      · -- the popped index was already visited (or out of range)
        next hcond =>
        apply ih
        · exact hvl
        · rwa [relabel_length]
        · simp only [List.length_cons] at hfuel
          omega
        · -- InvVC
          intro p hp hvis hcore
          obtain ⟨c, hc0, hcl⟩ := h1 p hp hvis hcore
          exact ⟨c, hc0, relabel_nonneg _ _ hc0 hcl⟩
        · -- InvLV
          intro p hp hlab
          by_cases hpj : p = j
          · subst hpj
            rcases hb : visited.getD p false with - | -
            · exact absurd ⟨hb, by omega⟩ hcond
            · rfl
          · have hlab' : labels.getD p none ≠ none := by
              rwa [relabel_getD_ne _ _ _ _ (fun hh => hpj hh.symm)] at hlab
            exact h2 p hp hlab'
        · -- InvVL
          intro p hp hvis
          by_cases hch : (relabel labels j cid).getD p none = labels.getD p none
          · rw [hch]
            exact h3 p hp hvis
          · rw [relabel_changed hch]
            simp
        · exact labelsSane_relabel _ hcid h4
        · -- InvPend
          intro p q hp hq hcp hcq hdpq c hc hlabp
          by_cases hqp : q = p
          · left
            rwa [hqp]
          by_cases hpj : p = j
          · -- the popped slot is already visited, so it kept its old label
            subst hpj
            have hvisp : visited.getD p false = true := by
              rcases hb : visited.getD p false with - | -
              · exact absurd ⟨hb, by omega⟩ hcond
              · rfl
            obtain ⟨cj, hcj0, hcjl⟩ := h1 p hp hvisp hcp
            have hunch := relabel_nonneg p cid hcj0 hcjl
            have hcj : c = cj := by
              rw [hlabp] at hunch
              exact Option.some.inj hunch
            subst hcj
            rcases h5 p q hp hq hcp hcq hdpq c hc hcjl with hL | ⟨hqs, hccid, htrip⟩
            · left
              exact relabel_nonneg _ _ hc hL
            · have hqrest : q ∈ rest := by
                rcases List.mem_cons.mp hqs with hh | hh
                · exact absurd hh hqp
                · exact hh
              right
              refine ⟨hqrest, hccid, ?_⟩
              rw [relabel_getD_ne _ _ _ _ (fun hh => hqp hh.symm)]
              exact htrip
          · have hlabp' : labels.getD p none = some c := by
              rwa [relabel_getD_ne _ _ _ _ (fun hh => hpj hh.symm)] at hlabp
            rcases h5 p q hp hq hcp hcq hdpq c hc hlabp' with hL | ⟨hqs, hccid, htrip⟩
            · left
              exact relabel_nonneg _ _ hc hL
            · by_cases hqj : q = j
              · subst hqj
                left
                rcases htrip with ht | ht | ht
                · rw [hccid, relabel_getD_self _ _ _ (by omega), if_pos (Or.inl ht)]
                · rw [hccid, relabel_getD_self _ _ _ (by omega), if_pos (Or.inr ht)]
                · rw [hccid]
                  exact relabel_nonneg _ _ hcid ht
              · have hqrest : q ∈ rest := by
                  rcases List.mem_cons.mp hqs with hh | hh
                  · exact absurd hh hqj
                  · exact hh
                right
                refine ⟨hqrest, hccid, ?_⟩
                rw [relabel_getD_ne _ _ _ _ (fun hh => hqj hh.symm)]
                exact htrip

/-- The labelled-implies-visited invariant is preserved by `expand` on its own. -/
theorem expand_invLV (X : Mat) (sc : Scaler) (eps : ℚ) (minPts : ℕ) (cid : ℤ) :
    ∀ (fuel : ℕ) (stack : List ℕ) (visited : List Bool) (labels : List (Option ℤ)),
      visited.length = X.length → InvLV X visited labels →
      InvLV X (expand X sc eps minPts cid fuel stack visited labels).1
        (expand X sc eps minPts cid fuel stack visited labels).2 := by
  intro fuel
  induction fuel with
  | zero => intro stack visited labels hvl h2; simpa [expand] using h2
  | succ f ih =>
    intro stack visited labels hvl h2
    cases stack with
    | nil => simpa [expand] using h2
    | cons j rest =>
      rw [expand]
      split
      · next hcond =>
        apply ih
        · rwa [List.length_set]
        · intro p hp hlab
          by_cases hpj : p = j
          · subst hpj
            exact getD_set_self _ _ _ _ hcond.2
          · have hlab' : labels.getD p none ≠ none := by
              rwa [relabel_getD_ne _ _ _ _ (fun hh => hpj hh.symm)] at hlab
            rw [getD_set_ne _ _ _ _ _ (fun hh => hpj hh.symm)]
            exact h2 p hp hlab'
      · next hcond =>
        apply ih
        · exact hvl
        · intro p hp hlab
          by_cases hpj : p = j
          · subst hpj
            rcases hb : visited.getD p false with - | -
            · exact absurd ⟨hb, by omega⟩ hcond
            · rfl
          · have hlab' : labels.getD p none ≠ none := by
              rwa [relabel_getD_ne _ _ _ _ (fun hh => hpj hh.symm)] at hlab
            exact h2 p hp hlab'

/-- C5's monotonicity at the outer-scan level: under the walk's own
invariants, a non-negative label is never overwritten. -/
theorem dbscanLoop_label_mono (X : Mat) (sc : Scaler) (eps : ℚ) (minPts : ℕ) :
    ∀ (fuel i : ℕ) (cid : ℤ) (visited : List Bool) (labels : List (Option ℤ))
      (p : ℕ) (c : ℤ),
      visited.length = X.length → labels.length = X.length →
      InvLV X visited labels →
      0 ≤ c → labels.getD p none = some c →
      (dbscanLoop X sc eps minPts fuel i cid visited labels).1.getD p none = some c := by
  intro fuel
  induction fuel with
  | zero => intro i cid visited labels p c hvl hll h2 hc h; simpa [dbscanLoop] using h
  | succ f ih =>
    intro i cid visited labels p c hvl hll h2 hc h
    rw [dbscanLoop]
    split
    · next hi =>
      split
      · exact ih _ _ _ _ p c hvl hll h2 hc h
      · next hvis =>
        split
        · -- noise branch: the current point is unvisited, hence unlabelled
          apply ih _ _ _ _ p c (by rwa [List.length_set]) (by rwa [List.length_set]) ?_ hc ?_
          · intro r hr hlab
            by_cases hri : r = i
            · subst hri
              exact getD_set_self _ _ _ _ (by omega)
            · rw [getD_set_ne _ _ _ _ _ (fun hh => hri hh.symm)]
              apply h2 r hr
              rwa [getD_set_ne _ _ _ _ _ (fun hh => hri hh.symm)] at hlab
          · by_cases hpi : p = i
            · subst hpi
              exfalso
              have := h2 p hi (by rw [h]; simp)
              rw [this] at hvis
              simp at hvis
            · rwa [getD_set_ne _ _ _ _ _ (fun hh => hpi hh.symm)]
        · -- cluster branch: seed set + expansion, both monotone
          apply ih
          · rw [(expand_lengths X sc eps minPts cid _ _ _ _).1, List.length_set]
            exact hvl
          · rw [(expand_lengths X sc eps minPts cid _ _ _ _).2, List.length_set]
            exact hll
          · apply expand_invLV
            · rwa [List.length_set]
            · intro r hr hlab
              by_cases hri : r = i
              · subst hri
                exact getD_set_self _ _ _ _ (by omega)
              · rw [getD_set_ne _ _ _ _ _ (fun hh => hri hh.symm)]
                apply h2 r hr
                rwa [getD_set_ne _ _ _ _ _ (fun hh => hri hh.symm)] at hlab
          · exact hc
          · apply expand_label_mono _ _ _ _ _ _ _ _ _ _ _ hc
            by_cases hpi : p = i
            · subst hpi
              exfalso
              have := h2 p hi (by rw [h]; simp)
              rw [this] at hvis
              simp at hvis
            · rwa [getD_set_ne _ _ _ _ _ (fun hh => hpi hh.symm)]
    · simpa using h

/-- The bundle of guarantees the finished outer scan delivers. -/
def LoopPost (X : Mat) (sc : Scaler) (eps : ℚ) (minPts : ℕ) (cid : ℤ)
    (r : List (Option ℤ) × ℤ) : Prop :=
  cid ≤ r.2 ∧ 0 ≤ r.2 ∧
    (∀ p, p < X.length → ∃ c, r.1.getD p none = some c) ∧
    (∀ p, p < X.length → isCore X sc eps minPts p →
      ∃ c, 0 ≤ c ∧ r.1.getD p none = some c) ∧
    InvDup X sc eps minPts r.1 ∧
    (∀ p c, r.1.getD p none = some c → c = -1 ∨ (0 ≤ c ∧ c < r.2)) ∧
    (∀ c : ℤ, 0 ≤ c → c < r.2 → ∃ p, p < X.length ∧ r.1.getD p none = some c)

/-- The master lemma for the outer scan: starting from a consistent state
with enough fuel to reach the end of the matrix, the walk labels every
point, labels core points non-negatively, keeps co-located core points in
the same cluster, emits labels exactly in `{-1} ∪ [0, finalCid)`, and
seeds every cluster id below the final counter. -/
theorem dbscanLoop_master (X : Mat) (sc : Scaler) (eps : ℚ) (minPts : ℕ)
    (heps : 0 ≤ eps) :
    ∀ (fuel i : ℕ) (cid : ℤ) (visited : List Bool) (labels : List (Option ℤ)),
      visited.length = X.length → labels.length = X.length →
      0 ≤ cid →
      X.length ≤ i + fuel →
      (∀ p, p < i → p < X.length → visited.getD p false = true) →
      InvVC X sc eps minPts visited labels →
      InvLV X visited labels →
      InvVL X visited labels →
      InvDup X sc eps minPts labels →
      (∀ p c, labels.getD p none = some c → c = -1 ∨ (0 ≤ c ∧ c < cid)) →
      (∀ c : ℤ, 0 ≤ c → c < cid → ∃ p, p < X.length ∧ labels.getD p none = some c) →
      LoopPost X sc eps minPts cid (dbscanLoop X sc eps minPts fuel i cid visited labels) := by
  intro fuel
  induction fuel with
  | zero =>
    intro i cid visited labels hvl hll hcid hif hvb h1 h2 h3 hdup hrange hseeds
    rw [dbscanLoop]
    refine ⟨le_refl _, hcid, ?_, ?_, hdup, hrange, hseeds⟩
    · intro p hp
      have hvis := hvb p (by omega) hp
      have := h3 p hp hvis
      rcases hx : labels.getD p none with - | c
      · exact absurd hx this
      · exact ⟨c, rfl⟩
    · intro p hp hcore
      exact h1 p hp (hvb p (by omega) hp) hcore
  | succ f ih =>
    intro i cid visited labels hvl hll hcid hif hvb h1 h2 h3 hdup hrange hseeds
    rw [dbscanLoop]
    split
    · next hi =>
      split
      · -- already visited: skip
        next hvis =>
        apply ih <;> try assumption
        · omega
        · intro p hp hp'
          by_cases hpi : p = i
          · subst hpi
            exact hvis
          · exact hvb p (by omega) hp'
      · next hvis =>
        have hvisf : visited.getD i false = false := by
          rcases hb : visited.getD i false with - | -
          · rfl
          · exact absurd hb hvis
        have hilabel : labels.getD i none = none := by
          rcases hx : labels.getD i none with - | c
          · rfl
          · exfalso
            have := h2 i hi (by rw [hx]; simp)
            rw [this] at hvisf
            simp at hvisf
        split
        · -- noise branch
          next hncore =>
          have hnotcore : ¬ isCore X sc eps minPts i := by
            unfold isCore
            omega
          apply ih
          · rwa [List.length_set]
          · rwa [List.length_set]
          · exact hcid
          · omega
          · intro p hp hp'
            by_cases hpi : p = i
            · subst hpi
              exact getD_set_self _ _ _ _ (by omega)
            · rw [getD_set_ne _ _ _ _ _ (fun hh => hpi hh.symm)]
              exact hvb p (by omega) hp'
          · -- InvVC
            intro p hp hvisp hcore
            by_cases hpi : p = i
            · subst hpi
              exact absurd hcore hnotcore
            · rw [getD_set_ne _ _ _ _ _ (fun hh => hpi hh.symm)] at hvisp
              obtain ⟨c, hc0, hcl⟩ := h1 p hp hvisp hcore
              exact ⟨c, hc0, by rwa [getD_set_ne _ _ _ _ _ (fun hh => hpi hh.symm)]⟩
          · -- InvLV
            intro p hp hlab
            by_cases hpi : p = i
            · subst hpi
              exact getD_set_self _ _ _ _ (by omega)
            · rw [getD_set_ne _ _ _ _ _ (fun hh => hpi hh.symm)]
              apply h2 p hp
              rwa [getD_set_ne _ _ _ _ _ (fun hh => hpi hh.symm)] at hlab
          · -- InvVL
            intro p hp hvisp
            by_cases hpi : p = i
            · subst hpi
              rw [getD_set_self _ _ _ _ (by omega)]
              simp
            · rw [getD_set_ne _ _ _ _ _ (fun hh => hpi hh.symm)]
              apply h3 p hp
              rwa [getD_set_ne _ _ _ _ _ (fun hh => hpi hh.symm)] at hvisp
          · -- InvDup
            intro p q hp hq hcp hcq hdpq c hc hlabp
            by_cases hpi : p = i
            · subst hpi
              exact absurd hcp hnotcore
            · by_cases hqi : q = i
              · subst hqi
                exact absurd hcq hnotcore
              · rw [getD_set_ne _ _ _ _ _ (fun hh => hpi hh.symm)] at hlabp
                rw [getD_set_ne _ _ _ _ _ (fun hh => hqi hh.symm)]
                exact hdup p q hp hq hcp hcq hdpq c hc hlabp
          · -- label range
            intro p c hlab
            by_cases hpi : p = i
            · subst hpi
              rw [getD_set_self _ _ _ _ (by omega)] at hlab
              cases hlab
              exact Or.inl rfl
            · rw [getD_set_ne _ _ _ _ _ (fun hh => hpi hh.symm)] at hlab
              exact hrange p c hlab
          · -- seeds
            intro c hc0 hclt
            obtain ⟨p, hp, hpl⟩ := hseeds c hc0 hclt
            refine ⟨p, hp, ?_⟩
            by_cases hpi : p = i
            · subst hpi
              rw [hilabel] at hpl
              cases hpl
            · rwa [getD_set_ne _ _ _ _ _ (fun hh => hpi hh.symm)]
        · -- cluster branch
          next hncore =>
          have hcore : isCore X sc eps minPts i := by
            unfold isCore
            omega
          -- state handed to the expansion
          have hvl' : (visited.set i true).length = X.length := by
            rwa [List.length_set]
          have hll' : (labels.set i (some cid)).length = X.length := by
            rwa [List.length_set]
          have hIVC : InvVC X sc eps minPts (visited.set i true)
              (labels.set i (some cid)) := by
            intro p hp hvisp hcorep
            by_cases hpi : p = i
            · subst hpi
              exact ⟨cid, hcid, getD_set_self _ _ _ _ (by omega)⟩
            · rw [getD_set_ne _ _ _ _ _ (fun hh => hpi hh.symm)] at hvisp
              obtain ⟨c, hc0, hcl⟩ := h1 p hp hvisp hcorep
              exact ⟨c, hc0, by rwa [getD_set_ne _ _ _ _ _ (fun hh => hpi hh.symm)]⟩
          have hILV : InvLV X (visited.set i true) (labels.set i (some cid)) := by
            intro p hp hlab
            by_cases hpi : p = i
            · subst hpi
              exact getD_set_self _ _ _ _ (by omega)
            · rw [getD_set_ne _ _ _ _ _ (fun hh => hpi hh.symm)]
              apply h2 p hp
              rwa [getD_set_ne _ _ _ _ _ (fun hh => hpi hh.symm)] at hlab
          have hIVL : InvVL X (visited.set i true) (labels.set i (some cid)) := by
            intro p hp hvisp
            by_cases hpi : p = i
            · subst hpi
              rw [getD_set_self _ _ _ _ (by omega)]
              simp
            · rw [getD_set_ne _ _ _ _ _ (fun hh => hpi hh.symm)]
              apply h3 p hp
              rwa [getD_set_ne _ _ _ _ _ (fun hh => hpi hh.symm)] at hvisp
          have hSane : LabelsSane (labels.set i (some cid)) := by
            intro p c hlab
            by_cases hpi : p = i
            · subst hpi
              rw [getD_set_self _ _ _ _ (by omega)] at hlab
              cases hlab
              exact Or.inr hcid
            · rw [getD_set_ne _ _ _ _ _ (fun hh => hpi hh.symm)] at hlab
              rcases hrange p c hlab with hh | hh
              · exact Or.inl hh
              · exact Or.inr hh.1
          have hPend : InvPend X sc eps minPts cid (nbhd X sc eps i)
              (labels.set i (some cid)) := by
            intro p q hp hq hcp hcq hdpq c hc hlabp
            by_cases hqp : q = p
            · left
              rwa [hqp]
            by_cases hpi : p = i
            · subst hpi
              rw [getD_set_self _ _ _ _ (by omega)] at hlabp
              have hceq : c = cid := (Option.some.inj hlabp).symm
              rcases hLq : labels.getD q none with - | lq
              · right
                refine ⟨mem_nbhd_of_dup heps hq hqp hdpq, hceq, ?_⟩
                rw [getD_set_ne _ _ _ _ _ (fun hh => hqp hh.symm), hLq]
                exact Or.inl rfl
              · by_cases hlq1 : lq = -1
                · subst hlq1
                  right
                  refine ⟨mem_nbhd_of_dup heps hq hqp hdpq, hceq, ?_⟩
                  rw [getD_set_ne _ _ _ _ _ (fun hh => hqp hh.symm), hLq]
                  exact Or.inr (Or.inl rfl)
                · exfalso
                  have hlq0 : 0 ≤ lq := by
                    rcases hrange q lq hLq with hh | hh
                    · exact absurd hh hlq1
                    · exact hh.1
                  have := hdup q p hq hp hcq hcp (dup_symm hdpq) lq hlq0 hLq
                  rw [hilabel] at this
                  cases this
            · rw [getD_set_ne _ _ _ _ _ (fun hh => hpi hh.symm)] at hlabp
              have hq' := hdup p q hp hq hcp hcq hdpq c hc hlabp
              by_cases hqi : q = i
              · subst hqi
                rw [hilabel] at hq'
                cases hq'
              · left
                rwa [getD_set_ne _ _ _ _ _ (fun hh => hqi hh.symm)]
          have hfuel2 : (nbhd X sc eps i).length +
              (X.length + 1) * ((visited.set i true).count false) ≤ expandFuel X := by
            have hn1 := nbhd_length_le X sc eps i
            have hc1 : (visited.set i true).count false ≤ X.length := by
              calc (visited.set i true).count false
                  ≤ (visited.set i true).length := List.count_le_length _ _
                _ = X.length := by rwa [List.length_set]
            have : (X.length + 1) * ((visited.set i true).count false)
                ≤ (X.length + 1) * X.length := by
              exact Nat.mul_le_mul_left _ hc1
            unfold expandFuel
            nlinarith
          obtain ⟨hE1, hE2, hE3, hE4, hE5⟩ :=
            expand_master X sc eps minPts cid heps hcid (expandFuel X)
              (nbhd X sc eps i) (visited.set i true) (labels.set i (some cid))
              hvl' hll' hfuel2 hIVC hILV hIVL hSane hPend
          -- now recurse at `i + 1` with counter `cid + 1`
          have hres := ih (i + 1) (cid + 1)
            (expand X sc eps minPts cid (expandFuel X) (nbhd X sc eps i)
              (visited.set i true) (labels.set i (some cid))).1
            (expand X sc eps minPts cid (expandFuel X) (nbhd X sc eps i)
              (visited.set i true) (labels.set i (some cid))).2
            (by rw [(expand_lengths X sc eps minPts cid _ _ _ _).1]; exact hvl')
            (by rw [(expand_lengths X sc eps minPts cid _ _ _ _).2]; exact hll')
            (by omega)
            (by omega)
            ?_ hE1 hE2 hE3 hE5 ?_ ?_
          · rcases hres with ⟨ha, hb, hc', hd, he, hf, hg⟩
            exact ⟨by omega, hb, hc', hd, he, hf, hg⟩
          · -- visited below i+1
            intro p hp hp'
            apply expand_visited_mono
            by_cases hpi : p = i
            · subst hpi
              exact getD_set_self _ _ _ _ (by omega)
            · rw [getD_set_ne _ _ _ _ _ (fun hh => hpi hh.symm)]
              exact hvb p (by omega) hp'
          · -- label range at cid + 1
            intro p c hlab
            by_cases hch :
                (expand X sc eps minPts cid (expandFuel X) (nbhd X sc eps i)
                  (visited.set i true) (labels.set i (some cid))).2.getD p none =
                (labels.set i (some cid)).getD p none
            · rw [hch] at hlab
              by_cases hpi : p = i
              · subst hpi
                rw [getD_set_self _ _ _ _ (by omega)] at hlab
                cases hlab
                right
                exact ⟨hcid, by omega⟩
              · rw [getD_set_ne _ _ _ _ _ (fun hh => hpi hh.symm)] at hlab
                rcases hrange p c hlab with hh | hh
                · exact Or.inl hh
                · exact Or.inr ⟨hh.1, by omega⟩
            · have := expand_label_new X sc eps minPts cid _ _ _ _ p hch
              rw [this] at hlab
              cases hlab
              right
              exact ⟨hcid, by omega⟩
          · -- seeds at cid + 1
            intro c hc0 hclt
            by_cases hceq : c = cid
            · subst hceq
              refine ⟨i, hi, ?_⟩
              apply expand_label_mono _ _ _ _ _ _ _ _ _ _ _ hc0
              exact getD_set_self _ _ _ _ (by omega)
            · have hclt' : c < cid := by omega
              obtain ⟨p, hp, hpl⟩ := hseeds c hc0 hclt'
              refine ⟨p, hp, ?_⟩
              apply expand_label_mono _ _ _ _ _ _ _ _ _ _ _ hc0
              by_cases hpi : p = i
              · subst hpi
                rw [hilabel] at hpl
                cases hpl
              · rwa [getD_set_ne _ _ _ _ _ (fun hh => hpi hh.symm)]
    · next hi =>
      refine ⟨le_refl _, hcid, ?_, ?_, hdup, hrange, hseeds⟩
      · intro p hp
        have hvis := hvb p (by omega) hp
        have := h3 p hp hvis
        rcases hx : labels.getD p none with - | c
        · exact absurd hx this
        · exact ⟨c, rfl⟩
      · intro p hp hcore
        exact h1 p hp (hvb p (by omega) hp) hcore

/-!
## Characterising the best-core fold
-/

/-- Indices of `corePoints` actually compared by `assign` (those with a
row in the scaled matrix). -/
def compared (st : Option Session) (Xraw : Mat) (cps : List ℕ) : List ℕ :=
  cps.filter (fun i => decide (i < (assignMat st Xraw).length))

theorem nearStep_skip {st : Option Session} {Xraw : Mat} {np : Vec}
    {b : Option (ℕ × ℚ)} {i : ℕ} (h : ¬ i < (assignMat st Xraw).length) :
    nearStep st Xraw np b i = b := by
  unfold nearStep
  rw [if_neg h]

theorem nearStep_none {st : Option Session} {Xraw : Mat} {np : Vec} {i : ℕ}
    (h : i < (assignMat st Xraw).length) :
    nearStep st Xraw np none i = some (i, coreDist st Xraw np i) := by
  unfold nearStep
  rw [if_pos h]

theorem nearStep_some {st : Option Session} {Xraw : Mat} {np : Vec}
    {bi : ℕ} {bd : ℚ} {i : ℕ} (h : i < (assignMat st Xraw).length) :
    nearStep st Xraw np (some (bi, bd)) i =
      if coreDist st Xraw np i < bd then some (i, coreDist st Xraw np i)
      else some (bi, bd) := by
  unfold nearStep
  rw [if_pos h]

/-- The fold from a finite running best: it returns the strict-first
minimum of the compared distances and the seed. -/
theorem nearestCore_aux (st : Option Session) (Xraw : Mat) (np : Vec) :
    ∀ (cps : List ℕ) (bi : ℕ) (bd : ℚ),
      ∃ j d, cps.foldl (nearStep st Xraw np) (some (bi, bd)) = some (j, d) ∧
        d ≤ bd ∧
        (∀ x ∈ compared st Xraw cps, d ≤ coreDist st Xraw np x) ∧
        ((j = bi ∧ d = bd) ∨
          (∃ pre post, compared st Xraw cps = pre ++ j :: post ∧
            d = coreDist st Xraw np j ∧ d < bd ∧
            ∀ x ∈ pre, d < coreDist st Xraw np x)) := by
  intro cps
  induction cps with
  | nil =>
    intro bi bd
    exact ⟨bi, bd, rfl, le_refl _, by simp [compared], Or.inl ⟨rfl, rfl⟩⟩
  | cons i rest ih =>
    intro bi bd
    by_cases hi : i < (assignMat st Xraw).length
    · have hcomp : compared st Xraw (i :: rest) = i :: compared st Xraw rest := by
        simp [compared, hi]
      by_cases hlt : coreDist st Xraw np i < bd
      · obtain ⟨j, d, heq, hled, hall, hcase⟩ := ih i (coreDist st Xraw np i)
        refine ⟨j, d, ?_, ?_, ?_, ?_⟩
        · rw [List.foldl_cons, nearStep_some hi, if_pos hlt]
          exact heq
        · exact le_of_lt (lt_of_le_of_lt hled hlt)
        · intro x hx
          rw [hcomp] at hx
          rcases List.mem_cons.mp hx with rfl | hx
          · exact hled
          · exact hall x hx
        · right
          rcases hcase with ⟨hj, hd⟩ | ⟨pre, post, hsplit, hdj, hdlt, hpre⟩
          · subst hj
            refine ⟨[], compared st Xraw rest, ?_, ?_, ?_, ?_⟩
            · rw [hcomp]
              rfl
            · rw [hd]
            · rw [hd]
              exact hlt
            · intro x hx
              simp at hx
          · refine ⟨i :: pre, post, ?_, hdj, lt_of_le_of_lt hled hlt, ?_⟩
            · rw [hcomp, hsplit]
              rfl
            · intro x hx
              rcases List.mem_cons.mp hx with rfl | hx
              · exact hdlt
              · exact hpre x hx
      · obtain ⟨j, d, heq, hled, hall, hcase⟩ := ih bi bd
        refine ⟨j, d, ?_, hled, ?_, ?_⟩
        · rw [List.foldl_cons, nearStep_some hi, if_neg hlt]
          exact heq
        · intro x hx
          rw [hcomp] at hx
          rcases List.mem_cons.mp hx with rfl | hx
          · exact le_trans hled (le_of_not_lt hlt)
          · exact hall x hx
        · rcases hcase with ⟨hj, hd⟩ | ⟨pre, post, hsplit, hdj, hdlt, hpre⟩
          · exact Or.inl ⟨hj, hd⟩
          · right
            refine ⟨i :: pre, post, ?_, hdj, hdlt, ?_⟩
            · rw [hcomp, hsplit]
              rfl
            · intro x hx
              rcases List.mem_cons.mp hx with rfl | hx
              · exact lt_of_lt_of_le hdlt (le_of_not_lt hlt)
              · exact hpre x hx
    · have hcomp : compared st Xraw (i :: rest) = compared st Xraw rest := by
        simp [compared, hi]
      obtain ⟨j, d, heq, hled, hall, hcase⟩ := ih bi bd
      refine ⟨j, d, ?_, hled, ?_, ?_⟩
      · rw [List.foldl_cons, nearStep_skip hi]
        exact heq
      · rw [hcomp]
        exact hall
      · rw [hcomp]
        exact hcase

/-- The full specification of the best-core search: `none` exactly when
no core point is compared; otherwise the strict-first minimum. -/
theorem nearestCore_spec (st : Option Session) (Xraw : Mat) (np : Vec) :
    ∀ cps : List ℕ,
      (compared st Xraw cps = [] → nearestCore st Xraw np cps = none) ∧
      (compared st Xraw cps ≠ [] →
        ∃ j pre post, compared st Xraw cps = pre ++ j :: post ∧
          (∀ x ∈ pre, coreDist st Xraw np j < coreDist st Xraw np x) ∧
          (∀ x ∈ compared st Xraw cps, coreDist st Xraw np j ≤ coreDist st Xraw np x) ∧
          nearestCore st Xraw np cps = some (j, coreDist st Xraw np j)) := by
  intro cps
  induction cps with
  | nil => exact ⟨fun _ => rfl, fun h => absurd rfl h⟩
  | cons i rest ih =>
    by_cases hi : i < (assignMat st Xraw).length
    · have hcomp : compared st Xraw (i :: rest) = i :: compared st Xraw rest := by
        simp [compared, hi]
      constructor
      · intro h
        rw [hcomp] at h
        cases h
      · intro _hne
        obtain ⟨j, d, heq, hled, hall, hcase⟩ :=
          nearestCore_aux st Xraw np rest i (coreDist st Xraw np i)
        have heq2 : nearestCore st Xraw np (i :: rest) = some (j, d) := by
          unfold nearestCore
          rw [List.foldl_cons, nearStep_none hi]
          exact heq
        rcases hcase with ⟨hj, hd⟩ | ⟨pre, post, hsplit, hdj, hdlt, hpre⟩
        · subst hj
          refine ⟨j, [], compared st Xraw rest, ?_, ?_, ?_, ?_⟩
          · rw [hcomp]
            rfl
          · intro x hx
            simp at hx
          · intro x hx
            rw [hcomp] at hx
            rcases List.mem_cons.mp hx with rfl | hx
            · exact le_refl _
            · rw [← hd]
              exact hall x hx
          · rw [heq2, hd]
        · refine ⟨j, i :: pre, post, ?_, ?_, ?_, ?_⟩
          · rw [hcomp, hsplit]
            rfl
          · intro x hx
            rcases List.mem_cons.mp hx with rfl | hx
            · rw [← hdj]
              exact hdlt
            · rw [← hdj]
              exact hpre x hx
          · intro x hx
            rw [hcomp] at hx
            rcases List.mem_cons.mp hx with rfl | hx
            · rw [← hdj]
              exact le_of_lt hdlt
            · rw [← hdj]
              exact hall x hx
          · rw [heq2, hdj]
    · have hcomp : compared st Xraw (i :: rest) = compared st Xraw rest := by
        simp [compared, hi]
      have hfold : nearestCore st Xraw np (i :: rest) = nearestCore st Xraw np rest := by
        unfold nearestCore
        rw [List.foldl_cons, nearStep_skip hi]
      rw [hcomp, hfold]
      exact ih

/-!
## From the initial state to the finished run
-/

/-- Reading a replicated list of the default value. -/
theorem getD_replicate {α : Type} (n p : ℕ) (d : α) :
    (List.replicate n d).getD p d = d := by
  rw [List.getD_eq_getElem?_getD, List.getElem?_replicate]
  split <;> rfl

/-- The guarantees of a full `dbscan` walk from the initial state. -/
theorem dbscanRun_post (X : Mat) (eps : ℚ) (minPts : ℕ) (heps : 0 ≤ eps) :
    LoopPost X (computeScaler X) eps minPts 0 (dbscanRun X eps minPts) := by
  unfold dbscanRun
  apply dbscanLoop_master X (computeScaler X) eps minPts heps
  · exact List.length_replicate ..
  · exact List.length_replicate ..
  · exact le_refl 0
  · omega
  · intro p hp
    omega
  · intro p hp hvis
    rw [getD_replicate] at hvis
    cases hvis
  · intro p hp hlab
    rw [getD_replicate] at hlab
    exact absurd rfl hlab
  · intro p hp hvis
    rw [getD_replicate] at hvis
    cases hvis
  · intro p q hp hq hcp hcq hd c hc hlab
    rw [getD_replicate] at hlab
    cases hlab
  · intro p c hlab
    rw [getD_replicate] at hlab
    cases hlab
  · intro c hc0 hclt
    omega

/-- Unfolding `dbscan` on a non-empty matrix. -/
theorem dbscan_nonempty (st : Option Session) (X : Mat) (eps : ℚ) (minPts : ℕ)
    (h : X.isEmpty = false) :
    dbscan st X eps minPts =
      (⟨(dbscanRun X eps minPts).1, corePointsOf X (computeScaler X) eps minPts,
        some (computeScaler X), some (summaryCounts (dbscanRun X eps minPts).1)⟩,
       some ⟨X, computeScaler X, (dbscanRun X eps minPts).1,
         corePointsOf X (computeScaler X) eps minPts, eps, minPts,
         summaryCounts (dbscanRun X eps minPts).1⟩) := by
  unfold dbscan
  rw [if_neg (by simp [h])]

/-- The radicand of `euclidean` equals the zero-filled sum of squared
coordinate differences. -/
theorem euclidSq_eq_sum (a b : Vec) :
    euclidSq a b =
      ∑ i in Finset.range (max a.length b.length), (a.getD i 0 - b.getD i 0) ^ 2 := by
  unfold euclidSq
  rw [foldl_add_eq, zero_add, sum_map_range]

/-- The radicand of `euclidean` is non-negative. -/
theorem euclidSq_nonneg (a b : Vec) : 0 ≤ euclidSq a b := by
  rw [euclidSq_eq_sum]
  apply Finset.sum_nonneg
  intro i _
  exact sq_nonneg _

/-- On a single-row matrix every column is degenerate: the clamp fires and
every stored squared deviation is `1`. -/
theorem computeScaler_single (r : Vec) :
    (computeScaler [r]).stdSq = List.replicate r.length 1 := by
  have hmean : ∀ j, colMean [r] j = r.getD j 0 := by
    intro j
    unfold colMean
    simp
  have hvar : ∀ j, colVar [r] j = 0 := by
    intro j
    unfold colVar
    rw [hmean]
    simp
  have hclamp : clampStdSq 0 = 1 := by
    unfold clampStdSq
    rw [if_pos (by positivity)]
  unfold computeScaler
  rw [if_neg (by simp)]
  show (List.range r.length).map (fun j => clampStdSq (colVar [r] j)) = List.replicate r.length 1
  have hall : ∀ b ∈ (List.range r.length).map (fun j => clampStdSq (colVar [r] j)), b = (1 : ℚ) := by
    intro b hb
    simp only [List.mem_map, List.mem_range] at hb
    obtain ⟨j, -, rfl⟩ := hb
    rw [hvar, hclamp]
  calc (List.range r.length).map (fun j => clampStdSq (colVar [r] j))
      = List.replicate ((List.range r.length).map
          (fun j => clampStdSq (colVar [r] j))).length 1 := List.eq_replicate_of_mem hall
    _ = List.replicate r.length 1 := by simp

/-!
## Counting distinct non-negative labels
-/

/-- The number of distinct non-negative labels in a label array. -/
def distinctNonnegCount (ls : List (Option ℤ)) : ℕ :=
  (((ls.filterMap id).filter (fun c => decide (0 ≤ c))).dedup).length

/-- A slot value is a member. -/
theorem getD_some_mem {ls : List (Option ℤ)} {p : ℕ} {c : ℤ}
    (h : ls.getD p none = some c) : some c ∈ ls := by
  by_cases hp : p < ls.length
  · have := getD_mem ls p none hp
    rwa [h] at this
  · rw [getD_eq_default _ _ _ (by omega)] at h
    cases h

/-- A member is some slot's value. -/
theorem mem_some_getD {ls : List (Option ℤ)} {c : ℤ} (h : some c ∈ ls) :
    ∃ p, ls.getD p none = some c := by
  obtain ⟨p, hp, hpe⟩ := List.mem_iff_getElem.mp h
  refine ⟨p, ?_⟩
  rw [List.getD_eq_getElem?_getD, List.getElem?_eq_getElem hp, hpe]
  rfl

/-- When the non-negative members are exactly `{0, …, k-1}`, there are
exactly `k` distinct non-negative labels. -/
theorem distinctNonnegCount_eq {ls : List (Option ℤ)} {k : ℤ} (hk : 0 ≤ k)
    (h1 : ∀ c : ℤ, some c ∈ ls → c = -1 ∨ (0 ≤ c ∧ c < k))
    (h2 : ∀ c : ℤ, 0 ≤ c → c < k → some c ∈ ls) :
    (distinctNonnegCount ls : ℤ) = k := by
  have hmem : ∀ c : ℤ,
      (c ∈ (ls.filterMap id).filter (fun c => decide (0 ≤ c))) ↔ (0 ≤ c ∧ c < k) := by
    intro c
    rw [List.mem_filter]
    constructor
    · rintro ⟨hin, hc0⟩
      have hin' : some c ∈ ls := by
        rcases List.mem_filterMap.mp hin with ⟨a, ha, hae⟩
        have haa : a = some c := hae
        rwa [haa] at ha
      have hc0' : (0 : ℤ) ≤ c := of_decide_eq_true hc0
      rcases h1 c hin' with hh | hh
      · omega
      · exact ⟨hc0', hh.2⟩
    · rintro ⟨hc0, hck⟩
      refine ⟨List.mem_filterMap.mpr ⟨some c, h2 c hc0 hck, rfl⟩, by simpa⟩
  have hfin : ((ls.filterMap id).filter (fun c => decide (0 ≤ c))).toFinset
      = (Finset.range k.toNat).image (fun n : ℕ => (n : ℤ)) := by
    ext c
    rw [List.mem_toFinset, hmem c, Finset.mem_image]
    constructor
    · rintro ⟨hc0, hck⟩
      exact ⟨c.toNat, Finset.mem_range.mpr (by omega), by omega⟩
    · rintro ⟨n, hn, rfl⟩
      have := Finset.mem_range.mp hn
      constructor
      · positivity
      · omega
  unfold distinctNonnegCount
  rw [← List.card_toFinset, hfin,
    Finset.card_image_of_injective _ (fun a b h => by exact_mod_cast h),
    Finset.card_range]
  omega

/-!
## Fidelity bridge for the squared-form embedding
-/

/-- Reading through `mapIdx` with `getD`. -/
theorem getD_mapIdx (l : Vec) (f : ℕ → ℚ → ℚ) (i : ℕ) (d : ℚ) :
    (l.mapIdx f).getD i d = if h : i < l.length then f i l[i] else d := by
  rw [List.getD_eq_getElem?_getD]
  split
  · next h =>
    rw [List.mapIdx_eq_enum_map, List.getElem?_map, List.getElem?_enum,
      List.getElem?_eq_getElem h]
    rfl
  · next h =>
    rw [List.mapIdx_eq_enum_map, List.getElem?_map, List.getElem?_enum,
      List.getElem?_eq_none (by omega)]
    rfl

/-- A zero-filled read of a scaled row. -/
theorem applyScalerToRow_getD (mean sd : List ℚ) (r : Vec) (j : ℕ) :
    (applyScalerToRow r (some ⟨some mean, some sd⟩)).getD j 0 =
      (if j < r.length then r.getD j 0 - mean.getD j 0 else 0) /
        (if sd.getD j 1 = 0 then 1 else sd.getD j 1) := by
  rw [show applyScalerToRow r (some ⟨some mean, some sd⟩) =
      r.mapIdx (fun j v =>
        (v - mean.getD j 0) / (let d := sd.getD j 1; if d = 0 then 1 else d)) from rfl]
  rw [getD_mapIdx]
  split
  · next h =>
    rw [List.getD_eq_getElem?_getD r j 0, List.getElem?_eq_getElem h]
    rfl
  · next h =>
    rw [zero_div]

/-- The scaled row keeps the raw row's length. -/
theorem applyScalerToRow_length (mean sd : List ℚ) (r : Vec) :
    (applyScalerToRow r (some ⟨some mean, some sd⟩)).length = r.length := by
  rw [show applyScalerToRow r (some ⟨some mean, some sd⟩) =
      r.mapIdx (fun j v =>
        (v - mean.getD j 0) / (let d := sd.getD j 1; if d = 0 then 1 else d)) from rfl]
  exact List.length_mapIdx ..

/-- Fidelity of the squared-form embedding: for a scaler with rational
`std` entries, the radicand of `euclidean` between two `applyScalerToRow`
outputs is exactly `scaledDistSq` of the raw rows under the scaler that
stores the squared entries.  (In the source the `std` entries are real
square roots; this identity is the algebraic fact that lets the embedding
carry `stdSq` and never materialise the scaled matrix.) -/
theorem euclidSq_applyScaler_eq (mean sd : List ℚ) (a b : Vec) :
    euclidSq (applyScalerToRow a (some ⟨some mean, some sd⟩))
        (applyScalerToRow b (some ⟨some mean, some sd⟩))
      = scaledDistSq ⟨mean, sd.map (fun x => x ^ 2)⟩ a b := by
  unfold euclidSq scaledDistSq
  rw [foldl_add_eq, foldl_add_eq, zero_add, zero_add,
    applyScalerToRow_length mean sd a, applyScalerToRow_length mean sd b]
  apply congrArg List.sum
  apply List.map_congr_left
  intro j hj
  rw [applyScalerToRow_getD, applyScalerToRow_getD]
  have hcent : ∀ r : Vec,
      (if j < r.length then r.getD j 0 - mean.getD j 0 else 0) =
        centered ⟨mean, sd.map (fun x => x ^ 2)⟩ r j := by
    intro r
    unfold centered
    rfl
  rw [hcent a, hcent b]
  have hD : stdSqAt ⟨mean, sd.map (fun x => x ^ 2)⟩ j =
      (if sd.getD j 1 = 0 then 1 else sd.getD j 1) ^ 2 := by
    unfold stdSqAt
    by_cases hjs : j < sd.length
    · have hmap : (sd.map (fun x => x ^ 2)).getD j 1 = (sd.getD j 1) ^ 2 := by
        rw [List.getD_eq_getElem?_getD, List.getElem?_map,
          List.getElem?_eq_getElem hjs, List.getD_eq_getElem?_getD,
          List.getElem?_eq_getElem hjs]
        rfl
      rw [hmap]
      by_cases h0 : sd.getD j 1 = 0
      · rw [h0]
        norm_num
      · rw [if_neg (pow_ne_zero 2 h0), if_neg h0]
    · have h1 : sd.getD j 1 = 1 := getD_eq_default _ _ _ (by omega)
      have h2 : (sd.map (fun x => x ^ 2)).getD j 1 = 1 :=
        getD_eq_default _ _ _ (by simpa using (by omega : sd.length ≤ j))
      rw [h1, h2]
      norm_num
  rw [hD, div_sub_div_same, div_pow]

/-!
## Projections of a non-degenerate `dbscan` call
-/

theorem dbscan_labels (st : Option Session) (X : Mat) (eps : ℚ) (minPts : ℕ)
    (h : X.isEmpty = false) :
    (dbscan st X eps minPts).1.labels = (dbscanRun X eps minPts).1 := by
  rw [dbscan_nonempty st X eps minPts h]

theorem dbscan_corePoints (st : Option Session) (X : Mat) (eps : ℚ) (minPts : ℕ)
    (h : X.isEmpty = false) :
    (dbscan st X eps minPts).1.corePoints =
      corePointsOf X (computeScaler X) eps minPts := by
  rw [dbscan_nonempty st X eps minPts h]

theorem dbscan_session (st : Option Session) (X : Mat) (eps : ℚ) (minPts : ℕ)
    (h : X.isEmpty = false) :
    (dbscan st X eps minPts).2 =
      some ⟨X, computeScaler X, (dbscanRun X eps minPts).1,
        corePointsOf X (computeScaler X) eps minPts, eps, minPts,
        summaryCounts (dbscanRun X eps minPts).1⟩ := by
  rw [dbscan_nonempty st X eps minPts h]

/-- The label array keeps the point count. -/
theorem dbscanLoop_length (X : Mat) (sc : Scaler) (eps : ℚ) (minPts : ℕ) :
    ∀ (fuel i : ℕ) (cid : ℤ) (visited : List Bool) (labels : List (Option ℤ)),
      (dbscanLoop X sc eps minPts fuel i cid visited labels).1.length = labels.length := by
  intro fuel
  induction fuel with
  | zero => intro i cid visited labels; simp [dbscanLoop]
  | succ f ih =>
    intro i cid visited labels
    rw [dbscanLoop]
    split
    · split
      · exact ih _ _ _ _
      · split
        · rw [ih]
          exact List.length_set ..
        · rw [ih, (expand_lengths _ _ _ _ _ _ _ _ _).2]
          exact List.length_set ..
    · rfl

theorem dbscanRun_length (X : Mat) (eps : ℚ) (minPts : ℕ) :
    (dbscanRun X eps minPts).1.length = X.length := by
  unfold dbscanRun
  rw [dbscanLoop_length]
  exact List.length_replicate ..

/-- Evaluating `assignByNearestCore` once the best pair is known. -/
theorem assign_eq_some {st : Option Session} {Xraw : Mat}
    {labels : List (Option ℤ)} {cps : List ℕ} {eps : ℚ} {np : Vec}
    {j : ℕ} {d : ℚ} (h : nearestCore st Xraw np cps = some (j, d)) :
    assignByNearestCore st Xraw labels cps eps np =
      if eps < 0 ∨ eps ^ 2 < d then ⟨some (-1), some d⟩
      else ⟨labels.getD j none, some d⟩ := by
  unfold assignByNearestCore
  rw [h]

/-- Evaluating `assignByNearestCore` when nothing was compared. -/
theorem assign_eq_none {st : Option Session} {Xraw : Mat}
    {labels : List (Option ℤ)} {cps : List ℕ} {eps : ℚ} {np : Vec}
    (h : nearestCore st Xraw np cps = none) :
    assignByNearestCore st Xraw labels cps eps np = ⟨some (-1), none⟩ := by
  unfold assignByNearestCore
  rw [h]

/-!
## The claims
-/

/-- C1: on the matrix `[[0,0],[0,1],[1,0],[10,10]]` with `eps = 1.5` and
`minPts = 3`, `dbscan` labels the first three points with cluster id `0`
and the fourth `-1`, and the returned summary maps label `0` to `3` points
and label `-1` to `1` point. -/
theorem claim_C1 :
    (dbscan none [[0, 0], [0, 1], [1, 0], [10, 10]] (3 / 2) 3).1.labels
        = [some 0, some 0, some 0, some (-1)] ∧
      (dbscan none [[0, 0], [0, 1], [1, 0], [10, 10]] (3 / 2) 3).1.summary
        = some [(some 0, 3), (some (-1), 1)] := by
  constructor
  · with_unfolding_all decide
  · with_unfolding_all decide

/-- C7: `euclidean` returns a non-negative real whose square is the
Euclidean sum over `max (len a) (len b)` positions, with any position
missing in either vector read as `0`. -/
theorem claim_C7 (a b : Vec) :
    0 ≤ Real.sqrt ((euclidSq a b : ℚ) : ℝ) ∧
      euclidSq a b =
        ∑ i in Finset.range (max a.length b.length), (a.getD i 0 - b.getD i 0) ^ 2 ∧
      Real.sqrt ((euclidSq a b : ℚ) : ℝ) ^ 2 =
        ((∑ i in Finset.range (max a.length b.length),
          (a.getD i 0 - b.getD i 0) ^ 2 : ℚ) : ℝ) := by
  refine ⟨Real.sqrt_nonneg _, euclidSq_eq_sum a b, ?_⟩
  rw [Real.sq_sqrt (by exact_mod_cast euclidSq_nonneg a b), ← euclidSq_eq_sum]

/-- C8: for a non-empty matrix every stored squared deviation of the
fitted scaler is positive (so the source's `std[j]` is finite and never
exactly `0`), and on a single-row matrix every entry is clamped to `1`. -/
theorem claim_C8 (X : Mat) (hne : X ≠ []) :
    (∀ q ∈ (computeScaler X).stdSq, 0 < q) ∧
      (∀ r : Vec, X = [r] → (computeScaler X).stdSq = List.replicate r.length 1) := by
  refine ⟨computeScaler_stdSq_pos X, ?_⟩
  intro r hr
  subst hr
  exact computeScaler_single r

/-- C8 witness. -/
theorem claim_C8_witness :
    (∀ q ∈ (computeScaler [[2, 3]]).stdSq, 0 < q) ∧
      (computeScaler [[2, 3]]).stdSq = List.replicate 2 1 := by
  have h := claim_C8 [[2, 3]] (by simp)
  exact ⟨h.1, h.2 [2, 3] rfl⟩

/-- C9: with the scaler argument absent — or malformed, i.e. missing
either array field — `applyScaler` is the identity on the matrix (a
row-wise shallow copy) and `applyScalerToRow` the identity on a row;
being total, the embedding cannot throw. -/
theorem claim_C9 (X : Mat) :
    applyScaler X none = X ∧
      (∀ r : Vec, applyScalerToRow r none = r) ∧
      (∀ sa : ScalerArg, sa.mean = none ∨ sa.std = none →
        applyScaler X (some sa) = X ∧ ∀ r : Vec, applyScalerToRow r (some sa) = r) := by
  refine ⟨?_, fun r => rfl, ?_⟩
  · unfold applyScaler
    simp [applyScalerToRow]
  · rintro ⟨m, s⟩ hma
    have hrow : ∀ r : Vec, applyScalerToRow r (some ⟨m, s⟩) = r := by
      intro r
      rcases hma with hm | hs
      · cases hm
        cases s <;> rfl
      · cases hs
        cases m <;> rfl
    constructor
    · unfold applyScaler
      simp [hrow]
    · exact hrow

/-- C9 witness. -/
theorem claim_C9_witness :
    applyScaler [[1, 2]] (some ⟨none, some [1]⟩) = [[1, 2]] ∧
      applyScalerToRow [3] (some ⟨some [0], none⟩) = [3] :=
  ⟨((claim_C9 [[1, 2]]).2.2 ⟨none, some [1]⟩ (Or.inl rfl)).1,
   ((claim_C9 [[1, 2]]).2.2 ⟨some [0], none⟩ (Or.inr rfl)).2 [3]⟩

/-- C10: a degenerate `dbscan` call (the empty matrix) returns the empty
result, carries no summary, and leaves the stored session untouched, so a
later `assign` still reads the previous session. -/
theorem claim_C10 (st : Option Session) (eps : ℚ) (minPts : ℕ) :
    (dbscan st [] eps minPts).2 = st ∧
      (dbscan st [] eps minPts).1 = ⟨[], [], none, none⟩ ∧
      (dbscan st [] eps minPts).1.summary = none ∧
      (∀ (Xr : Mat) (ls : List (Option ℤ)) (cps : List ℕ) (eps2 : ℚ) (np : Vec),
        assignByNearestCore (dbscan st [] eps minPts).2 Xr ls cps eps2 np =
          assignByNearestCore st Xr ls cps eps2 np) := by
  exact ⟨rfl, rfl, rfl, fun _ _ _ _ _ => rfl⟩

/-- C2: with `eps ≥ 0` and `minPts ≥ 1`, no point labelled `-1` by
`cluster` has an eps-neighbourhood (in scaled space, including itself) of
size `≥ minPts`; equivalently the `-1`-labelled indices and the returned
`corePoints` are disjoint. -/
theorem claim_C2 (st : Option Session) (X : Mat) (eps : ℚ) (minPts : ℕ)
    (heps : 0 ≤ eps) (hmin : 1 ≤ minPts) :
    (∀ p, p < X.length →
        (dbscan st X eps minPts).1.labels.getD p none = some (-1) →
        ¬ isCore X (computeScaler X) eps minPts p) ∧
      (∀ p ∈ (dbscan st X eps minPts).1.corePoints,
        (dbscan st X eps minPts).1.labels.getD p none ≠ some (-1)) := by
  by_cases hX : X.isEmpty
  · have hX0 : X = [] := List.isEmpty_iff.mp hX
    subst hX0
    constructor
    · intro p hp
      simp at hp
    · intro p hp
      simp [dbscan] at hp
  · have hXf : X.isEmpty = false := by
      rcases hb : X.isEmpty with - | -
      · rfl
      · exact absurd hb hX
    rw [dbscan_labels st X eps minPts hXf, dbscan_corePoints st X eps minPts hXf]
    obtain ⟨-, -, -, hcore, -, -, -⟩ := dbscanRun_post X eps minPts heps
    constructor
    · intro p hp hlab hcorep
      obtain ⟨c, hc0, hcl⟩ := hcore p hp hcorep
      rw [hcl] at hlab
      have := Option.some.inj hlab
      omega
    · intro p hp hlab
      rw [mem_corePointsOf] at hp
      obtain ⟨c, hc0, hcl⟩ := hcore p hp.1 hp.2
      rw [hcl] at hlab
      have := Option.some.inj hlab
      omega

/-- C2 witness. -/
theorem claim_C2_witness :
    (∀ p, p < ([[0], [1]] : Mat).length →
        (dbscan none [[0], [1]] 1 1).1.labels.getD p none = some (-1) →
        ¬ isCore [[0], [1]] (computeScaler [[0], [1]]) 1 1 p) ∧
      (∀ p ∈ (dbscan none [[0], [1]] 1 1).1.corePoints,
        (dbscan none [[0], [1]] 1 1).1.labels.getD p none ≠ some (-1)) :=
  claim_C2 none [[0], [1]] 1 1 (by norm_num) (le_refl 1)

/-- C3: for a session produced by `cluster` on a non-empty matrix with
`eps ≥ 0`, calling `assign` with the session's own labels and core points
and the raw vector of a core point `i` labelled `c` returns cluster `c`
at (squared) distance exactly `0`. -/
theorem claim_C3 (st : Option Session) (X : Mat) (eps : ℚ) (minPts : ℕ)
    (heps : 0 ≤ eps) (hne : X ≠ []) (i : ℕ) (c : ℤ)
    (hi : i ∈ (dbscan st X eps minPts).1.corePoints)
    (hc : (dbscan st X eps minPts).1.labels.getD i none = some c) :
    assignByNearestCore (dbscan st X eps minPts).2 X
        (dbscan st X eps minPts).1.labels (dbscan st X eps minPts).1.corePoints
        eps (X.getD i []) = ⟨some c, some 0⟩ := by
  have hXf : X.isEmpty = false := by
    rcases hb : X.isEmpty with - | -
    · rfl
    · exact absurd (List.isEmpty_iff.mp hb) hne
  rw [dbscan_labels st X eps minPts hXf] at hc ⊢
  rw [dbscan_corePoints st X eps minPts hXf] at hi ⊢
  rw [dbscan_session st X eps minPts hXf]
  obtain ⟨-, -, -, hcorelab, hdupE, -, -⟩ := dbscanRun_post X eps minPts heps
  rw [mem_corePointsOf] at hi
  obtain ⟨c0, hc00, hc0l⟩ := hcorelab i hi.1 hi.2
  have hcc : c = c0 := by
    rw [hc0l] at hc
    exact (Option.some.inj hc).symm
  subst hcc
  set sc := computeScaler X with hsc
  set st2 : Option Session := some ⟨X, sc, (dbscanRun X eps minPts).1,
    corePointsOf X sc eps minPts, eps, minPts,
    summaryCounts (dbscanRun X eps minPts).1⟩ with hst2
  have hicomp : i ∈ compared st2 X (corePointsOf X sc eps minPts) := by
    unfold compared
    rw [List.mem_filter]
    refine ⟨mem_corePointsOf.mpr hi, ?_⟩
    show decide (i < X.length) = true
    simpa using hi.1
  have hnonempty : compared st2 X (corePointsOf X sc eps minPts) ≠ [] :=
    List.ne_nil_of_mem hicomp
  obtain ⟨j, pre, post, hsplit, hpre, hall, heq⟩ :=
    (nearestCore_spec st2 X (X.getD i []) (corePointsOf X sc eps minPts)).2 hnonempty
  have hdispos : ∀ x, 0 ≤ coreDist st2 X (X.getD i []) x := by
    intro x
    exact scaledDistSq_nonneg (computeScaler_stdSq_pos X) _ _
  have hdii : coreDist st2 X (X.getD i []) i = 0 :=
    scaledDistSq_self sc (X.getD i [])
  have hdj0 : coreDist st2 X (X.getD i []) j = 0 := by
    have h1 := hall i hicomp
    rw [hdii] at h1
    exact le_antisymm h1 (hdispos j)
  have hjcomp : j ∈ compared st2 X (corePointsOf X sc eps minPts) := by
    rw [hsplit]
    exact List.mem_append.mpr (Or.inr (List.mem_cons_self j post))
  have hjcp := (List.mem_filter.mp hjcomp).1
  rw [mem_corePointsOf] at hjcp
  have hdup : Dup X sc j i := hdj0
  have hlabj := hdupE i j hi.1 hjcp.1 hi.2 hjcp.2 (dup_symm hdup) c hc00 hc0l
  have hcond : ¬(eps < 0 ∨ eps ^ 2 < (0 : ℚ)) := by
    rintro (hcase | hcase)
    · exact absurd hcase (not_lt.mpr heps)
    · exact absurd hcase (not_lt.mpr (by positivity))
  rw [assign_eq_some heq, hdj0, if_neg hcond, hlabj]

/-- C3 witness. -/
theorem claim_C3_witness :
    assignByNearestCore
        (dbscan none [[0, 0], [0, 1], [1, 0], [10, 10]] (3 / 2) 3).2
        [[0, 0], [0, 1], [1, 0], [10, 10]]
        (dbscan none [[0, 0], [0, 1], [1, 0], [10, 10]] (3 / 2) 3).1.labels
        (dbscan none [[0, 0], [0, 1], [1, 0], [10, 10]] (3 / 2) 3).1.corePoints
        (3 / 2) (([[0, 0], [0, 1], [1, 0], [10, 10]] : Mat).getD 0 []) =
      ⟨some 0, some 0⟩ :=
  claim_C3 none [[0, 0], [0, 1], [1, 0], [10, 10]] (3 / 2) 3 (by norm_num)
    (by simp) 0 0 (by with_unfolding_all decide) (by with_unfolding_all decide)

/-- C4: with `eps ≥ 0` and `minPts ≥ 1`, every returned label is `-1` or
an integer in `[0, k)`, where `k` is the number of distinct non-negative
labels produced (all of `0 … k-1` occur); no entry remains unset. -/
theorem claim_C4 (st : Option Session) (X : Mat) (eps : ℚ) (minPts : ℕ)
    (heps : 0 ≤ eps) (hmin : 1 ≤ minPts) :
    ∃ k : ℕ,
      k = distinctNonnegCount (dbscan st X eps minPts).1.labels ∧
        (dbscan st X eps minPts).1.labels.length = X.length ∧
        (∀ p, p < X.length → ∃ c : ℤ,
          (dbscan st X eps minPts).1.labels.getD p none = some c ∧
            (c = -1 ∨ (0 ≤ c ∧ c < (k : ℤ)))) ∧
        (∀ m : ℕ, m < k → some ((m : ℤ)) ∈ (dbscan st X eps minPts).1.labels) := by
  by_cases hX : X.isEmpty
  · have hX0 : X = [] := List.isEmpty_iff.mp hX
    subst hX0
    refine ⟨0, rfl, rfl, ?_, ?_⟩
    · intro p hp
      simp at hp
    · intro m hm
      omega
  · have hXf : X.isEmpty = false := by
      rcases hb : X.isEmpty with - | -
      · rfl
      · exact absurd hb hX
    rw [dbscan_labels st X eps minPts hXf]
    obtain ⟨-, hk0, hall, -, -, hrange, hseeds⟩ := dbscanRun_post X eps minPts heps
    refine ⟨(dbscanRun X eps minPts).2.toNat, ?_, dbscanRun_length X eps minPts, ?_, ?_⟩
    · have := @distinctNonnegCount_eq (dbscanRun X eps minPts).1
        (dbscanRun X eps minPts).2 hk0 ?_ ?_
      · omega
      · intro c hcmem
        obtain ⟨p, hpl⟩ := mem_some_getD hcmem
        exact hrange p c hpl
      · intro c hc0 hck
        obtain ⟨p, -, hpl⟩ := hseeds c hc0 hck
        exact getD_some_mem hpl
    · intro p hp
      obtain ⟨c, hcl⟩ := hall p hp
      refine ⟨c, hcl, ?_⟩
      rcases hrange p c hcl with hh | hh
      · exact Or.inl hh
      · refine Or.inr ⟨hh.1, ?_⟩
        have := hh.2
        omega
    · intro m hm
      obtain ⟨p, -, hpl⟩ := hseeds (m : ℤ) (by positivity) (by omega)
      exact getD_some_mem hpl

/-- C4 witness. -/
theorem claim_C4_witness :
    ∃ k : ℕ,
      k = distinctNonnegCount (dbscan none [[5]] 0 1).1.labels ∧
        (dbscan none [[5]] 0 1).1.labels.length = ([[5]] : Mat).length ∧
        (∀ p, p < ([[5]] : Mat).length → ∃ c : ℤ,
          (dbscan none [[5]] 0 1).1.labels.getD p none = some c ∧
            (c = -1 ∨ (0 ≤ c ∧ c < (k : ℤ)))) ∧
        (∀ m : ℕ, m < k → some ((m : ℤ)) ∈ (dbscan none [[5]] 0 1).1.labels) :=
  claim_C4 none [[5]] 0 1 (le_refl 0) (le_refl 1)

/-- C5: during the walk, a slot holding a non-negative cluster id is never
changed again — neither by the expansion loop nor by the remaining outer
scan (from any state satisfying the walk's labelled-implies-visited
invariant) — while a `-1` slot may later be upgraded: in the run on
`[[0],[1],[2],[3]]` with `eps = 1`, `minPts = 3`, point `0` is first
labelled `-1` (after the first outer iteration) and ends in cluster `0`. -/
theorem claim_C5 :
    (∀ (X : Mat) (sc : Scaler) (eps : ℚ) (minPts : ℕ) (cid : ℤ)
        (fuel : ℕ) (stack : List ℕ) (visited : List Bool)
        (labels : List (Option ℤ)) (p : ℕ) (c : ℤ),
      0 ≤ c → labels.getD p none = some c →
      (expand X sc eps minPts cid fuel stack visited labels).2.getD p none = some c) ∧
      (∀ (X : Mat) (sc : Scaler) (eps : ℚ) (minPts : ℕ) (fuel i : ℕ) (cid : ℤ)
          (visited : List Bool) (labels : List (Option ℤ)) (p : ℕ) (c : ℤ),
        visited.length = X.length → labels.length = X.length →
        InvLV X visited labels →
        0 ≤ c → labels.getD p none = some c →
        (dbscanLoop X sc eps minPts fuel i cid visited labels).1.getD p none = some c) ∧
      (dbscanLoop [[0], [1], [2], [3]] (computeScaler [[0], [1], [2], [3]]) 1 3
          1 0 0 (List.replicate 4 false) (List.replicate 4 none)).1.getD 0 none =
        some (-1) ∧
      (dbscan none [[0], [1], [2], [3]] 1 3).1.labels.getD 0 none = some 0 := by
  refine ⟨?_, ?_, ?_, ?_⟩
  · intro X sc eps minPts cid fuel stack visited labels p c hc h
    exact expand_label_mono X sc eps minPts cid fuel stack visited labels p c hc h
  · intro X sc eps minPts fuel i cid visited labels p c hvl hll hlv hc h
    exact dbscanLoop_label_mono X sc eps minPts fuel i cid visited labels p c hvl hll hlv hc h
  · with_unfolding_all decide
  · with_unfolding_all decide

/-- C5 witness. -/
theorem claim_C5_witness :
    (dbscanLoop [[0]] (computeScaler [[0]]) 0 1 1 0 0 [true] [some 5]).1.getD 0 none =
      some 5 :=
  claim_C5.2.1 [[0]] (computeScaler [[0]]) 0 1 1 0 0 [true] [some 5] 0 5 rfl rfl
    (fun p hp _ => by
      have hp0 : p = 0 := by
        have hp1 : p < 1 := by simpa using hp
        omega
      subst hp0
      rfl)
    (by norm_num) rfl

/-- C6: `assign` returns the noise outcome `{cluster: -1, dist: Infinity}`
when no core point is compared, and otherwise finds the strict-first
nearest compared core point `j`: it reports that (squared) distance, and
returns cluster `-1` when the distance exceeds `eps` (on squares:
`eps < 0 ∨ eps² < d`), else `labels[j]`. -/
theorem claim_C6 (st : Option Session) (Xraw : Mat) (labels : List (Option ℤ))
    (cps : List ℕ) (eps : ℚ) (np : Vec) :
    (compared st Xraw cps = [] →
        assignByNearestCore st Xraw labels cps eps np = ⟨some (-1), none⟩) ∧
      (compared st Xraw cps ≠ [] →
        ∃ j pre post, compared st Xraw cps = pre ++ j :: post ∧
          (∀ x ∈ pre, coreDist st Xraw np j < coreDist st Xraw np x) ∧
          (∀ x ∈ compared st Xraw cps,
            coreDist st Xraw np j ≤ coreDist st Xraw np x) ∧
          (assignByNearestCore st Xraw labels cps eps np).distSq =
            some (coreDist st Xraw np j) ∧
          ((eps < 0 ∨ eps ^ 2 < coreDist st Xraw np j) →
            (assignByNearestCore st Xraw labels cps eps np).cluster = some (-1)) ∧
          (¬(eps < 0 ∨ eps ^ 2 < coreDist st Xraw np j) →
            (assignByNearestCore st Xraw labels cps eps np).cluster =
              labels.getD j none)) := by
  constructor
  · intro h
    exact assign_eq_none ((nearestCore_spec st Xraw np cps).1 h)
  · intro h
    obtain ⟨j, pre, post, hsplit, hpre, hall, heq⟩ :=
      (nearestCore_spec st Xraw np cps).2 h
    refine ⟨j, pre, post, hsplit, hpre, hall, ?_, ?_, ?_⟩
    · rw [assign_eq_some heq]
      split <;> rfl
    · intro hcond
      rw [assign_eq_some heq, if_pos hcond]
    · intro hcond
      rw [assign_eq_some heq, if_neg hcond]

/-- C6 witness. -/
theorem claim_C6_witness :
    ∃ j pre post,
      compared none [[0], [2]] [1] = pre ++ j :: post ∧
        (∀ x ∈ pre, coreDist none [[0], [2]] [0] j < coreDist none [[0], [2]] [0] x) ∧
        (∀ x ∈ compared none [[0], [2]] [1],
          coreDist none [[0], [2]] [0] j ≤ coreDist none [[0], [2]] [0] x) ∧
        (assignByNearestCore none [[0], [2]] [some 0, some 1] [1] 1 [0]).distSq =
          some (coreDist none [[0], [2]] [0] j) ∧
        ((1 < (0 : ℚ) ∨ (1 : ℚ) ^ 2 < coreDist none [[0], [2]] [0] j) →
          (assignByNearestCore none [[0], [2]] [some 0, some 1] [1] 1 [0]).cluster =
            some (-1)) ∧
        (¬((1 : ℚ) < 0 ∨ (1 : ℚ) ^ 2 < coreDist none [[0], [2]] [0] j) →
          (assignByNearestCore none [[0], [2]] [some 0, some 1] [1] 1 [0]).cluster =
            [some 0, some 1].getD j none) :=
  (claim_C6 none [[0], [2]] [some 0, some 1] [1] 1 [0]).2
    (by with_unfolding_all decide)

end EmailML
